import Mathlib

/-!
Verification development for the OpenFst sources.

Part I embeds the table-based bit selection of
`src/extensions/ngram/nthbit.cc` (the 32-bit, non-BMI2 variant), the generator
given in its comment, and the two tables of the 64-bit, non-BMI2 variant.
Part II embeds the flag declarations of `src/bin/fstshortestdistance.cc`.
Part III models the shortest-distance engine those flags configure.
Definitions come first, the theorems follow.
-/

namespace Fst

/-! ## Part I: `nthbit.cc` -/

/-- Popcount of 1-byte values, `nth_bit_bit_count[256]`. -/
def nth_bit_bit_count : List Nat := [
  0, 1, 1, 2, 1, 2, 2, 3, 1, 2, 2, 3, 2, 3, 3, 4,
  1, 2, 2, 3, 2, 3, 3, 4, 2, 3, 3, 4, 3, 4, 4, 5,
  1, 2, 2, 3, 2, 3, 3, 4, 2, 3, 3, 4, 3, 4, 4, 5,
  2, 3, 3, 4, 3, 4, 4, 5, 3, 4, 4, 5, 4, 5, 5, 6,
  1, 2, 2, 3, 2, 3, 3, 4, 2, 3, 3, 4, 3, 4, 4, 5,
  2, 3, 3, 4, 3, 4, 4, 5, 3, 4, 4, 5, 4, 5, 5, 6,
  2, 3, 3, 4, 3, 4, 4, 5, 3, 4, 4, 5, 4, 5, 5, 6,
  3, 4, 4, 5, 4, 5, 5, 6, 4, 5, 5, 6, 5, 6, 6, 7,
  1, 2, 2, 3, 2, 3, 3, 4, 2, 3, 3, 4, 3, 4, 4, 5,
  2, 3, 3, 4, 3, 4, 4, 5, 3, 4, 4, 5, 4, 5, 5, 6,
  2, 3, 3, 4, 3, 4, 4, 5, 3, 4, 4, 5, 4, 5, 5, 6,
  3, 4, 4, 5, 4, 5, 5, 6, 4, 5, 5, 6, 5, 6, 6, 7,
  2, 3, 3, 4, 3, 4, 4, 5, 3, 4, 4, 5, 4, 5, 5, 6,
  3, 4, 4, 5, 4, 5, 5, 6, 4, 5, 5, 6, 5, 6, 6, 7,
  3, 4, 4, 5, 4, 5, 5, 6, 4, 5, 5, 6, 5, 6, 6, 7,
  4, 5, 5, 6, 5, 6, 6, 7, 5, 6, 6, 7, 6, 7, 7, 8]

/-- Bit position of the r-th set bit of a 1-byte value, `nth_bit_bit_pos[8][256]`. -/
def nth_bit_bit_pos : List (List Nat) := [
  [
    255, 0, 1, 0, 2, 0, 1, 0, 3, 0, 1, 0, 2, 0, 1, 0,
    4, 0, 1, 0, 2, 0, 1, 0, 3, 0, 1, 0, 2, 0, 1, 0,
    5, 0, 1, 0, 2, 0, 1, 0, 3, 0, 1, 0, 2, 0, 1, 0,
    4, 0, 1, 0, 2, 0, 1, 0, 3, 0, 1, 0, 2, 0, 1, 0,
    6, 0, 1, 0, 2, 0, 1, 0, 3, 0, 1, 0, 2, 0, 1, 0,
    4, 0, 1, 0, 2, 0, 1, 0, 3, 0, 1, 0, 2, 0, 1, 0,
    5, 0, 1, 0, 2, 0, 1, 0, 3, 0, 1, 0, 2, 0, 1, 0,
    4, 0, 1, 0, 2, 0, 1, 0, 3, 0, 1, 0, 2, 0, 1, 0,
    7, 0, 1, 0, 2, 0, 1, 0, 3, 0, 1, 0, 2, 0, 1, 0,
    4, 0, 1, 0, 2, 0, 1, 0, 3, 0, 1, 0, 2, 0, 1, 0,
    5, 0, 1, 0, 2, 0, 1, 0, 3, 0, 1, 0, 2, 0, 1, 0,
    4, 0, 1, 0, 2, 0, 1, 0, 3, 0, 1, 0, 2, 0, 1, 0,
    6, 0, 1, 0, 2, 0, 1, 0, 3, 0, 1, 0, 2, 0, 1, 0,
    4, 0, 1, 0, 2, 0, 1, 0, 3, 0, 1, 0, 2, 0, 1, 0,
    5, 0, 1, 0, 2, 0, 1, 0, 3, 0, 1, 0, 2, 0, 1, 0,
    4, 0, 1, 0, 2, 0, 1, 0, 3, 0, 1, 0, 2, 0, 1, 0],
  [
    255, 255, 255, 1, 255, 2, 2, 1, 255, 3, 3, 1, 3, 2, 2, 1,
    255, 4, 4, 1, 4, 2, 2, 1, 4, 3, 3, 1, 3, 2, 2, 1,
    255, 5, 5, 1, 5, 2, 2, 1, 5, 3, 3, 1, 3, 2, 2, 1,
    5, 4, 4, 1, 4, 2, 2, 1, 4, 3, 3, 1, 3, 2, 2, 1,
    255, 6, 6, 1, 6, 2, 2, 1, 6, 3, 3, 1, 3, 2, 2, 1,
    6, 4, 4, 1, 4, 2, 2, 1, 4, 3, 3, 1, 3, 2, 2, 1,
    6, 5, 5, 1, 5, 2, 2, 1, 5, 3, 3, 1, 3, 2, 2, 1,
    5, 4, 4, 1, 4, 2, 2, 1, 4, 3, 3, 1, 3, 2, 2, 1,
    255, 7, 7, 1, 7, 2, 2, 1, 7, 3, 3, 1, 3, 2, 2, 1,
    7, 4, 4, 1, 4, 2, 2, 1, 4, 3, 3, 1, 3, 2, 2, 1,
    7, 5, 5, 1, 5, 2, 2, 1, 5, 3, 3, 1, 3, 2, 2, 1,
    5, 4, 4, 1, 4, 2, 2, 1, 4, 3, 3, 1, 3, 2, 2, 1,
    7, 6, 6, 1, 6, 2, 2, 1, 6, 3, 3, 1, 3, 2, 2, 1,
    6, 4, 4, 1, 4, 2, 2, 1, 4, 3, 3, 1, 3, 2, 2, 1,
    6, 5, 5, 1, 5, 2, 2, 1, 5, 3, 3, 1, 3, 2, 2, 1,
    5, 4, 4, 1, 4, 2, 2, 1, 4, 3, 3, 1, 3, 2, 2, 1],
  [
    255, 255, 255, 255, 255, 255, 255, 2, 255, 255, 255, 3, 255, 3, 3, 2,
    255, 255, 255, 4, 255, 4, 4, 2, 255, 4, 4, 3, 4, 3, 3, 2,
    255, 255, 255, 5, 255, 5, 5, 2, 255, 5, 5, 3, 5, 3, 3, 2,
    255, 5, 5, 4, 5, 4, 4, 2, 5, 4, 4, 3, 4, 3, 3, 2,
    255, 255, 255, 6, 255, 6, 6, 2, 255, 6, 6, 3, 6, 3, 3, 2,
    255, 6, 6, 4, 6, 4, 4, 2, 6, 4, 4, 3, 4, 3, 3, 2,
    255, 6, 6, 5, 6, 5, 5, 2, 6, 5, 5, 3, 5, 3, 3, 2,
    6, 5, 5, 4, 5, 4, 4, 2, 5, 4, 4, 3, 4, 3, 3, 2,
    255, 255, 255, 7, 255, 7, 7, 2, 255, 7, 7, 3, 7, 3, 3, 2,
    255, 7, 7, 4, 7, 4, 4, 2, 7, 4, 4, 3, 4, 3, 3, 2,
    255, 7, 7, 5, 7, 5, 5, 2, 7, 5, 5, 3, 5, 3, 3, 2,
    7, 5, 5, 4, 5, 4, 4, 2, 5, 4, 4, 3, 4, 3, 3, 2,
    255, 7, 7, 6, 7, 6, 6, 2, 7, 6, 6, 3, 6, 3, 3, 2,
    7, 6, 6, 4, 6, 4, 4, 2, 6, 4, 4, 3, 4, 3, 3, 2,
    7, 6, 6, 5, 6, 5, 5, 2, 6, 5, 5, 3, 5, 3, 3, 2,
    6, 5, 5, 4, 5, 4, 4, 2, 5, 4, 4, 3, 4, 3, 3, 2],
  [
    255, 255, 255, 255, 255, 255, 255, 255, 255, 255, 255, 255, 255, 255, 255, 3,
    255, 255, 255, 255, 255, 255, 255, 4, 255, 255, 255, 4, 255, 4, 4, 3,
    255, 255, 255, 255, 255, 255, 255, 5, 255, 255, 255, 5, 255, 5, 5, 3,
    255, 255, 255, 5, 255, 5, 5, 4, 255, 5, 5, 4, 5, 4, 4, 3,
    255, 255, 255, 255, 255, 255, 255, 6, 255, 255, 255, 6, 255, 6, 6, 3,
    255, 255, 255, 6, 255, 6, 6, 4, 255, 6, 6, 4, 6, 4, 4, 3,
    255, 255, 255, 6, 255, 6, 6, 5, 255, 6, 6, 5, 6, 5, 5, 3,
    255, 6, 6, 5, 6, 5, 5, 4, 6, 5, 5, 4, 5, 4, 4, 3,
    255, 255, 255, 255, 255, 255, 255, 7, 255, 255, 255, 7, 255, 7, 7, 3,
    255, 255, 255, 7, 255, 7, 7, 4, 255, 7, 7, 4, 7, 4, 4, 3,
    255, 255, 255, 7, 255, 7, 7, 5, 255, 7, 7, 5, 7, 5, 5, 3,
    255, 7, 7, 5, 7, 5, 5, 4, 7, 5, 5, 4, 5, 4, 4, 3,
    255, 255, 255, 7, 255, 7, 7, 6, 255, 7, 7, 6, 7, 6, 6, 3,
    255, 7, 7, 6, 7, 6, 6, 4, 7, 6, 6, 4, 6, 4, 4, 3,
    255, 7, 7, 6, 7, 6, 6, 5, 7, 6, 6, 5, 6, 5, 5, 3,
    7, 6, 6, 5, 6, 5, 5, 4, 6, 5, 5, 4, 5, 4, 4, 3],
  [
    255, 255, 255, 255, 255, 255, 255, 255, 255, 255, 255, 255, 255, 255, 255, 255,
    255, 255, 255, 255, 255, 255, 255, 255, 255, 255, 255, 255, 255, 255, 255, 4,
    255, 255, 255, 255, 255, 255, 255, 255, 255, 255, 255, 255, 255, 255, 255, 5,
    255, 255, 255, 255, 255, 255, 255, 5, 255, 255, 255, 5, 255, 5, 5, 4,
    255, 255, 255, 255, 255, 255, 255, 255, 255, 255, 255, 255, 255, 255, 255, 6,
    255, 255, 255, 255, 255, 255, 255, 6, 255, 255, 255, 6, 255, 6, 6, 4,
    255, 255, 255, 255, 255, 255, 255, 6, 255, 255, 255, 6, 255, 6, 6, 5,
    255, 255, 255, 6, 255, 6, 6, 5, 255, 6, 6, 5, 6, 5, 5, 4,
    255, 255, 255, 255, 255, 255, 255, 255, 255, 255, 255, 255, 255, 255, 255, 7,
    255, 255, 255, 255, 255, 255, 255, 7, 255, 255, 255, 7, 255, 7, 7, 4,
    255, 255, 255, 255, 255, 255, 255, 7, 255, 255, 255, 7, 255, 7, 7, 5,
    255, 255, 255, 7, 255, 7, 7, 5, 255, 7, 7, 5, 7, 5, 5, 4,
    255, 255, 255, 255, 255, 255, 255, 7, 255, 255, 255, 7, 255, 7, 7, 6,
    255, 255, 255, 7, 255, 7, 7, 6, 255, 7, 7, 6, 7, 6, 6, 4,
    255, 255, 255, 7, 255, 7, 7, 6, 255, 7, 7, 6, 7, 6, 6, 5,
    255, 7, 7, 6, 7, 6, 6, 5, 7, 6, 6, 5, 6, 5, 5, 4],
  [
    255, 255, 255, 255, 255, 255, 255, 255, 255, 255, 255, 255, 255, 255, 255, 255,
    255, 255, 255, 255, 255, 255, 255, 255, 255, 255, 255, 255, 255, 255, 255, 255,
    255, 255, 255, 255, 255, 255, 255, 255, 255, 255, 255, 255, 255, 255, 255, 255,
    255, 255, 255, 255, 255, 255, 255, 255, 255, 255, 255, 255, 255, 255, 255, 5,
    255, 255, 255, 255, 255, 255, 255, 255, 255, 255, 255, 255, 255, 255, 255, 255,
    255, 255, 255, 255, 255, 255, 255, 255, 255, 255, 255, 255, 255, 255, 255, 6,
    255, 255, 255, 255, 255, 255, 255, 255, 255, 255, 255, 255, 255, 255, 255, 6,
    255, 255, 255, 255, 255, 255, 255, 6, 255, 255, 255, 6, 255, 6, 6, 5,
    255, 255, 255, 255, 255, 255, 255, 255, 255, 255, 255, 255, 255, 255, 255, 255,
    255, 255, 255, 255, 255, 255, 255, 255, 255, 255, 255, 255, 255, 255, 255, 7,
    255, 255, 255, 255, 255, 255, 255, 255, 255, 255, 255, 255, 255, 255, 255, 7,
    255, 255, 255, 255, 255, 255, 255, 7, 255, 255, 255, 7, 255, 7, 7, 5,
    255, 255, 255, 255, 255, 255, 255, 255, 255, 255, 255, 255, 255, 255, 255, 7,
    255, 255, 255, 255, 255, 255, 255, 7, 255, 255, 255, 7, 255, 7, 7, 6,
    255, 255, 255, 255, 255, 255, 255, 7, 255, 255, 255, 7, 255, 7, 7, 6,
    255, 255, 255, 7, 255, 7, 7, 6, 255, 7, 7, 6, 7, 6, 6, 5],
  [
    255, 255, 255, 255, 255, 255, 255, 255, 255, 255, 255, 255, 255, 255, 255, 255,
    255, 255, 255, 255, 255, 255, 255, 255, 255, 255, 255, 255, 255, 255, 255, 255,
    255, 255, 255, 255, 255, 255, 255, 255, 255, 255, 255, 255, 255, 255, 255, 255,
    255, 255, 255, 255, 255, 255, 255, 255, 255, 255, 255, 255, 255, 255, 255, 255,
    255, 255, 255, 255, 255, 255, 255, 255, 255, 255, 255, 255, 255, 255, 255, 255,
    255, 255, 255, 255, 255, 255, 255, 255, 255, 255, 255, 255, 255, 255, 255, 255,
    255, 255, 255, 255, 255, 255, 255, 255, 255, 255, 255, 255, 255, 255, 255, 255,
    255, 255, 255, 255, 255, 255, 255, 255, 255, 255, 255, 255, 255, 255, 255, 6,
    255, 255, 255, 255, 255, 255, 255, 255, 255, 255, 255, 255, 255, 255, 255, 255,
    255, 255, 255, 255, 255, 255, 255, 255, 255, 255, 255, 255, 255, 255, 255, 255,
    255, 255, 255, 255, 255, 255, 255, 255, 255, 255, 255, 255, 255, 255, 255, 255,
    255, 255, 255, 255, 255, 255, 255, 255, 255, 255, 255, 255, 255, 255, 255, 7,
    255, 255, 255, 255, 255, 255, 255, 255, 255, 255, 255, 255, 255, 255, 255, 255,
    255, 255, 255, 255, 255, 255, 255, 255, 255, 255, 255, 255, 255, 255, 255, 7,
    255, 255, 255, 255, 255, 255, 255, 255, 255, 255, 255, 255, 255, 255, 255, 7,
    255, 255, 255, 255, 255, 255, 255, 7, 255, 255, 255, 7, 255, 7, 7, 6],
  [
    255, 255, 255, 255, 255, 255, 255, 255, 255, 255, 255, 255, 255, 255, 255, 255,
    255, 255, 255, 255, 255, 255, 255, 255, 255, 255, 255, 255, 255, 255, 255, 255,
    255, 255, 255, 255, 255, 255, 255, 255, 255, 255, 255, 255, 255, 255, 255, 255,
    255, 255, 255, 255, 255, 255, 255, 255, 255, 255, 255, 255, 255, 255, 255, 255,
    255, 255, 255, 255, 255, 255, 255, 255, 255, 255, 255, 255, 255, 255, 255, 255,
    255, 255, 255, 255, 255, 255, 255, 255, 255, 255, 255, 255, 255, 255, 255, 255,
    255, 255, 255, 255, 255, 255, 255, 255, 255, 255, 255, 255, 255, 255, 255, 255,
    255, 255, 255, 255, 255, 255, 255, 255, 255, 255, 255, 255, 255, 255, 255, 255,
    255, 255, 255, 255, 255, 255, 255, 255, 255, 255, 255, 255, 255, 255, 255, 255,
    255, 255, 255, 255, 255, 255, 255, 255, 255, 255, 255, 255, 255, 255, 255, 255,
    255, 255, 255, 255, 255, 255, 255, 255, 255, 255, 255, 255, 255, 255, 255, 255,
    255, 255, 255, 255, 255, 255, 255, 255, 255, 255, 255, 255, 255, 255, 255, 255,
    255, 255, 255, 255, 255, 255, 255, 255, 255, 255, 255, 255, 255, 255, 255, 255,
    255, 255, 255, 255, 255, 255, 255, 255, 255, 255, 255, 255, 255, 255, 255, 255,
    255, 255, 255, 255, 255, 255, 255, 255, 255, 255, 255, 255, 255, 255, 255, 255,
    255, 255, 255, 255, 255, 255, 255, 255, 255, 255, 255, 255, 255, 255, 255, 7]]

/-- Entry `i` of an array, `none` standing for an access outside the array. -/
def readAt : List Nat → Nat → Option Nat
  | [], _ => none
  | x :: _, 0 => some x
  | _ :: xs, i + 1 => readAt xs i

/-- Read of `nth_bit_bit_count[i]`. -/
def bit_count_at (i : Nat) : Option Nat := readAt nth_bit_bit_count i

/-- Read of `nth_bit_bit_pos[r][i]`, `none` standing for an access outside the
array. -/
def bit_pos_at (r i : Nat) : Option Nat :=
  match nth_bit_bit_pos.get? r with
  | some row => readAt row i
  | none => none

/-- Width of `uint32` arithmetic. -/
def U32 : Nat := 2 ^ 32

/-- The `uint32` subtraction `r -= c`. -/
def sub32 (r c : Nat) : Nat := (r + U32 - c % U32) % U32

/-- The function `nth_bit(const uint64 v, uint32 r)`: the eight unrolled byte
stanzas, then `return -1` (as a `uint32`). -/
def nth_bit (v r : Nat) : Option Nat := do
  let next_byte := (v &&& 255) % U32
  let byte_popcount ← bit_count_at next_byte
  if r < byte_popcount then return (← bit_pos_at r next_byte) % U32
  let r := sub32 r byte_popcount
  let next_byte := ((v >>> 8) &&& 255) % U32
  let byte_popcount ← bit_count_at next_byte
  if r < byte_popcount then return (8 + (← bit_pos_at r next_byte)) % U32
  let r := sub32 r byte_popcount
  let next_byte := ((v >>> 16) &&& 255) % U32
  let byte_popcount ← bit_count_at next_byte
  if r < byte_popcount then return (16 + (← bit_pos_at r next_byte)) % U32
  let r := sub32 r byte_popcount
  let next_byte := ((v >>> 24) &&& 255) % U32
  let byte_popcount ← bit_count_at next_byte
  if r < byte_popcount then return (24 + (← bit_pos_at r next_byte)) % U32
  let r := sub32 r byte_popcount
  let next_byte := ((v >>> 32) &&& 255) % U32
  let byte_popcount ← bit_count_at next_byte
  if r < byte_popcount then return (32 + (← bit_pos_at r next_byte)) % U32
  let r := sub32 r byte_popcount
  let next_byte := ((v >>> 40) &&& 255) % U32
  let byte_popcount ← bit_count_at next_byte
  if r < byte_popcount then return (40 + (← bit_pos_at r next_byte)) % U32
  let r := sub32 r byte_popcount
  let next_byte := ((v >>> 48) &&& 255) % U32
  let byte_popcount ← bit_count_at next_byte
  if r < byte_popcount then return (48 + (← bit_pos_at r next_byte)) % U32
  let r := sub32 r byte_popcount
  let next_byte := ((v >>> 56) &&& 255) % U32
  let byte_popcount ← bit_count_at next_byte
  if r < byte_popcount then return (56 + (← bit_pos_at r next_byte)) % U32
  return U32 - 1

/-- Number of set bits of `v` strictly below position `p`. -/
def countBelow (v : Nat) : Nat → Nat
  | 0 => 0
  | p + 1 => countBelow v p + (if v.testBit p then 1 else 0)

/-- The 64-bit population count `__builtin_popcountll`. -/
def popcountll (v : Nat) : Nat := countBelow v 64

/-- Check of one `nth_bit_bit_pos` entry against the bits of the byte. -/
def bytePosOk (r b : Nat) : Bool :=
  match bit_pos_at r b with
  | some p => decide (p < 8) && b.testBit p && (countBelow b p == r)
  | none => false

/-- Stanzas `k, k+1, ...` of `nth_bit` written as a recursion over the number of
stanzas left. -/
def stanzas (v : Nat) : Nat → Nat → Nat → Option Nat
  | 0, _, _ => pure (U32 - 1)
  | n + 1, k, r => do
    let byte_popcount ← bit_count_at (((v >>> (8 * k)) &&& 255) % U32)
    if r < byte_popcount then
      return (8 * k + (← bit_pos_at r (((v >>> (8 * k)) &&& 255) % U32))) % U32
    stanzas v n (k + 1) (sub32 r byte_popcount)

/-- Width of `uint64` arithmetic. -/
def U64 : Nat := 2 ^ 64

/-- Iterations `i, i+1, ...` of the loop of `nth_bit_scan`, the generator given
in the comment above the tables: `r -= v & 1` in `uint32`, return `i` if `r` is
then 0, else shift `v`; `-1` (as a `uint32`) once no iteration is left. -/
def nth_bit_scan_from : Nat → Nat → Nat → Nat → Nat
  | 0, _, _, _ => U32 - 1
  | n + 1, i, v, r =>
    if sub32 r (v &&& 1) = 0 then i
    else nth_bit_scan_from n (i + 1) (v >>> 1) (sub32 r (v &&& 1))

/-- The generator `uint32 nth_bit_scan(uint64 v, uint32 r)` of the comment:
the loop runs for `i = 0 .. 63`. -/
def nth_bit_scan (v r : Nat) : Nat := nth_bit_scan_from 64 0 v r

/-- The conversion `uint8 pos = nth_bit_scan(i, j)` of the generator. -/
def toUint8 (x : Nat) : Nat := x % 256

/-- The constant `kOnesStep8` of the generator comment. -/
def kOnesStep8 : Nat := 0x0101010101010101

/-- The table `internal::kPrefixSumOverflow[64]` (64-bit, non-BMI2 variant). -/
def kPrefixSumOverflow : List Nat := [
  0x7f7f7f7f7f7f7f7f,
  0x7e7e7e7e7e7e7e7e,
  0x7d7d7d7d7d7d7d7d,
  0x7c7c7c7c7c7c7c7c,
  0x7b7b7b7b7b7b7b7b,
  0x7a7a7a7a7a7a7a7a,
  0x7979797979797979,
  0x7878787878787878,
  0x7777777777777777,
  0x7676767676767676,
  0x7575757575757575,
  0x7474747474747474,
  0x7373737373737373,
  0x7272727272727272,
  0x7171717171717171,
  0x7070707070707070,
  0x6f6f6f6f6f6f6f6f,
  0x6e6e6e6e6e6e6e6e,
  0x6d6d6d6d6d6d6d6d,
  0x6c6c6c6c6c6c6c6c,
  0x6b6b6b6b6b6b6b6b,
  0x6a6a6a6a6a6a6a6a,
  0x6969696969696969,
  0x6868686868686868,
  0x6767676767676767,
  0x6666666666666666,
  0x6565656565656565,
  0x6464646464646464,
  0x6363636363636363,
  0x6262626262626262,
  0x6161616161616161,
  0x6060606060606060,
  0x5f5f5f5f5f5f5f5f,
  0x5e5e5e5e5e5e5e5e,
  0x5d5d5d5d5d5d5d5d,
  0x5c5c5c5c5c5c5c5c,
  0x5b5b5b5b5b5b5b5b,
  0x5a5a5a5a5a5a5a5a,
  0x5959595959595959,
  0x5858585858585858,
  0x5757575757575757,
  0x5656565656565656,
  0x5555555555555555,
  0x5454545454545454,
  0x5353535353535353,
  0x5252525252525252,
  0x5151515151515151,
  0x5050505050505050,
  0x4f4f4f4f4f4f4f4f,
  0x4e4e4e4e4e4e4e4e,
  0x4d4d4d4d4d4d4d4d,
  0x4c4c4c4c4c4c4c4c,
  0x4b4b4b4b4b4b4b4b,
  0x4a4a4a4a4a4a4a4a,
  0x4949494949494949,
  0x4848484848484848,
  0x4747474747474747,
  0x4646464646464646,
  0x4545454545454545,
  0x4444444444444444,
  0x4343434343434343,
  0x4242424242424242,
  0x4141414141414141,
  0x4040404040404040]

/-- The table `internal::kSelectInByte[8 * 256]` (64-bit, non-BMI2 variant),
written as the concatenation of its eight blocks of 256 entries. -/
def kSelectInByte : List Nat :=
  [
    0, 0, 1, 0, 2, 0, 1, 0, 3, 0, 1, 0, 2, 0, 1, 0,
    4, 0, 1, 0, 2, 0, 1, 0, 3, 0, 1, 0, 2, 0, 1, 0,
    5, 0, 1, 0, 2, 0, 1, 0, 3, 0, 1, 0, 2, 0, 1, 0,
    4, 0, 1, 0, 2, 0, 1, 0, 3, 0, 1, 0, 2, 0, 1, 0,
    6, 0, 1, 0, 2, 0, 1, 0, 3, 0, 1, 0, 2, 0, 1, 0,
    4, 0, 1, 0, 2, 0, 1, 0, 3, 0, 1, 0, 2, 0, 1, 0,
    5, 0, 1, 0, 2, 0, 1, 0, 3, 0, 1, 0, 2, 0, 1, 0,
    4, 0, 1, 0, 2, 0, 1, 0, 3, 0, 1, 0, 2, 0, 1, 0,
    7, 0, 1, 0, 2, 0, 1, 0, 3, 0, 1, 0, 2, 0, 1, 0,
    4, 0, 1, 0, 2, 0, 1, 0, 3, 0, 1, 0, 2, 0, 1, 0,
    5, 0, 1, 0, 2, 0, 1, 0, 3, 0, 1, 0, 2, 0, 1, 0,
    4, 0, 1, 0, 2, 0, 1, 0, 3, 0, 1, 0, 2, 0, 1, 0,
    6, 0, 1, 0, 2, 0, 1, 0, 3, 0, 1, 0, 2, 0, 1, 0,
    4, 0, 1, 0, 2, 0, 1, 0, 3, 0, 1, 0, 2, 0, 1, 0,
    5, 0, 1, 0, 2, 0, 1, 0, 3, 0, 1, 0, 2, 0, 1, 0,
    4, 0, 1, 0, 2, 0, 1, 0, 3, 0, 1, 0, 2, 0, 1, 0] ++
  [
    0, 0, 0, 1, 0, 2, 2, 1, 0, 3, 3, 1, 3, 2, 2, 1,
    0, 4, 4, 1, 4, 2, 2, 1, 4, 3, 3, 1, 3, 2, 2, 1,
    0, 5, 5, 1, 5, 2, 2, 1, 5, 3, 3, 1, 3, 2, 2, 1,
    5, 4, 4, 1, 4, 2, 2, 1, 4, 3, 3, 1, 3, 2, 2, 1,
    0, 6, 6, 1, 6, 2, 2, 1, 6, 3, 3, 1, 3, 2, 2, 1,
    6, 4, 4, 1, 4, 2, 2, 1, 4, 3, 3, 1, 3, 2, 2, 1,
    6, 5, 5, 1, 5, 2, 2, 1, 5, 3, 3, 1, 3, 2, 2, 1,
    5, 4, 4, 1, 4, 2, 2, 1, 4, 3, 3, 1, 3, 2, 2, 1,
    0, 7, 7, 1, 7, 2, 2, 1, 7, 3, 3, 1, 3, 2, 2, 1,
    7, 4, 4, 1, 4, 2, 2, 1, 4, 3, 3, 1, 3, 2, 2, 1,
    7, 5, 5, 1, 5, 2, 2, 1, 5, 3, 3, 1, 3, 2, 2, 1,
    5, 4, 4, 1, 4, 2, 2, 1, 4, 3, 3, 1, 3, 2, 2, 1,
    7, 6, 6, 1, 6, 2, 2, 1, 6, 3, 3, 1, 3, 2, 2, 1,
    6, 4, 4, 1, 4, 2, 2, 1, 4, 3, 3, 1, 3, 2, 2, 1,
    6, 5, 5, 1, 5, 2, 2, 1, 5, 3, 3, 1, 3, 2, 2, 1,
    5, 4, 4, 1, 4, 2, 2, 1, 4, 3, 3, 1, 3, 2, 2, 1] ++
  [
    0, 0, 0, 0, 0, 0, 0, 2, 0, 0, 0, 3, 0, 3, 3, 2,
    0, 0, 0, 4, 0, 4, 4, 2, 0, 4, 4, 3, 4, 3, 3, 2,
    0, 0, 0, 5, 0, 5, 5, 2, 0, 5, 5, 3, 5, 3, 3, 2,
    0, 5, 5, 4, 5, 4, 4, 2, 5, 4, 4, 3, 4, 3, 3, 2,
    0, 0, 0, 6, 0, 6, 6, 2, 0, 6, 6, 3, 6, 3, 3, 2,
    0, 6, 6, 4, 6, 4, 4, 2, 6, 4, 4, 3, 4, 3, 3, 2,
    0, 6, 6, 5, 6, 5, 5, 2, 6, 5, 5, 3, 5, 3, 3, 2,
    6, 5, 5, 4, 5, 4, 4, 2, 5, 4, 4, 3, 4, 3, 3, 2,
    0, 0, 0, 7, 0, 7, 7, 2, 0, 7, 7, 3, 7, 3, 3, 2,
    0, 7, 7, 4, 7, 4, 4, 2, 7, 4, 4, 3, 4, 3, 3, 2,
    0, 7, 7, 5, 7, 5, 5, 2, 7, 5, 5, 3, 5, 3, 3, 2,
    7, 5, 5, 4, 5, 4, 4, 2, 5, 4, 4, 3, 4, 3, 3, 2,
    0, 7, 7, 6, 7, 6, 6, 2, 7, 6, 6, 3, 6, 3, 3, 2,
    7, 6, 6, 4, 6, 4, 4, 2, 6, 4, 4, 3, 4, 3, 3, 2,
    7, 6, 6, 5, 6, 5, 5, 2, 6, 5, 5, 3, 5, 3, 3, 2,
    6, 5, 5, 4, 5, 4, 4, 2, 5, 4, 4, 3, 4, 3, 3, 2] ++
  [
    0, 0, 0, 0, 0, 0, 0, 0, 0, 0, 0, 0, 0, 0, 0, 3,
    0, 0, 0, 0, 0, 0, 0, 4, 0, 0, 0, 4, 0, 4, 4, 3,
    0, 0, 0, 0, 0, 0, 0, 5, 0, 0, 0, 5, 0, 5, 5, 3,
    0, 0, 0, 5, 0, 5, 5, 4, 0, 5, 5, 4, 5, 4, 4, 3,
    0, 0, 0, 0, 0, 0, 0, 6, 0, 0, 0, 6, 0, 6, 6, 3,
    0, 0, 0, 6, 0, 6, 6, 4, 0, 6, 6, 4, 6, 4, 4, 3,
    0, 0, 0, 6, 0, 6, 6, 5, 0, 6, 6, 5, 6, 5, 5, 3,
    0, 6, 6, 5, 6, 5, 5, 4, 6, 5, 5, 4, 5, 4, 4, 3,
    0, 0, 0, 0, 0, 0, 0, 7, 0, 0, 0, 7, 0, 7, 7, 3,
    0, 0, 0, 7, 0, 7, 7, 4, 0, 7, 7, 4, 7, 4, 4, 3,
    0, 0, 0, 7, 0, 7, 7, 5, 0, 7, 7, 5, 7, 5, 5, 3,
    0, 7, 7, 5, 7, 5, 5, 4, 7, 5, 5, 4, 5, 4, 4, 3,
    0, 0, 0, 7, 0, 7, 7, 6, 0, 7, 7, 6, 7, 6, 6, 3,
    0, 7, 7, 6, 7, 6, 6, 4, 7, 6, 6, 4, 6, 4, 4, 3,
    0, 7, 7, 6, 7, 6, 6, 5, 7, 6, 6, 5, 6, 5, 5, 3,
    7, 6, 6, 5, 6, 5, 5, 4, 6, 5, 5, 4, 5, 4, 4, 3] ++
  [
    0, 0, 0, 0, 0, 0, 0, 0, 0, 0, 0, 0, 0, 0, 0, 0,
    0, 0, 0, 0, 0, 0, 0, 0, 0, 0, 0, 0, 0, 0, 0, 4,
    0, 0, 0, 0, 0, 0, 0, 0, 0, 0, 0, 0, 0, 0, 0, 5,
    0, 0, 0, 0, 0, 0, 0, 5, 0, 0, 0, 5, 0, 5, 5, 4,
    0, 0, 0, 0, 0, 0, 0, 0, 0, 0, 0, 0, 0, 0, 0, 6,
    0, 0, 0, 0, 0, 0, 0, 6, 0, 0, 0, 6, 0, 6, 6, 4,
    0, 0, 0, 0, 0, 0, 0, 6, 0, 0, 0, 6, 0, 6, 6, 5,
    0, 0, 0, 6, 0, 6, 6, 5, 0, 6, 6, 5, 6, 5, 5, 4,
    0, 0, 0, 0, 0, 0, 0, 0, 0, 0, 0, 0, 0, 0, 0, 7,
    0, 0, 0, 0, 0, 0, 0, 7, 0, 0, 0, 7, 0, 7, 7, 4,
    0, 0, 0, 0, 0, 0, 0, 7, 0, 0, 0, 7, 0, 7, 7, 5,
    0, 0, 0, 7, 0, 7, 7, 5, 0, 7, 7, 5, 7, 5, 5, 4,
    0, 0, 0, 0, 0, 0, 0, 7, 0, 0, 0, 7, 0, 7, 7, 6,
    0, 0, 0, 7, 0, 7, 7, 6, 0, 7, 7, 6, 7, 6, 6, 4,
    0, 0, 0, 7, 0, 7, 7, 6, 0, 7, 7, 6, 7, 6, 6, 5,
    0, 7, 7, 6, 7, 6, 6, 5, 7, 6, 6, 5, 6, 5, 5, 4] ++
  [
    0, 0, 0, 0, 0, 0, 0, 0, 0, 0, 0, 0, 0, 0, 0, 0,
    0, 0, 0, 0, 0, 0, 0, 0, 0, 0, 0, 0, 0, 0, 0, 0,
    0, 0, 0, 0, 0, 0, 0, 0, 0, 0, 0, 0, 0, 0, 0, 0,
    0, 0, 0, 0, 0, 0, 0, 0, 0, 0, 0, 0, 0, 0, 0, 5,
    0, 0, 0, 0, 0, 0, 0, 0, 0, 0, 0, 0, 0, 0, 0, 0,
    0, 0, 0, 0, 0, 0, 0, 0, 0, 0, 0, 0, 0, 0, 0, 6,
    0, 0, 0, 0, 0, 0, 0, 0, 0, 0, 0, 0, 0, 0, 0, 6,
    0, 0, 0, 0, 0, 0, 0, 6, 0, 0, 0, 6, 0, 6, 6, 5,
    0, 0, 0, 0, 0, 0, 0, 0, 0, 0, 0, 0, 0, 0, 0, 0,
    0, 0, 0, 0, 0, 0, 0, 0, 0, 0, 0, 0, 0, 0, 0, 7,
    0, 0, 0, 0, 0, 0, 0, 0, 0, 0, 0, 0, 0, 0, 0, 7,
    0, 0, 0, 0, 0, 0, 0, 7, 0, 0, 0, 7, 0, 7, 7, 5,
    0, 0, 0, 0, 0, 0, 0, 0, 0, 0, 0, 0, 0, 0, 0, 7,
    0, 0, 0, 0, 0, 0, 0, 7, 0, 0, 0, 7, 0, 7, 7, 6,
    0, 0, 0, 0, 0, 0, 0, 7, 0, 0, 0, 7, 0, 7, 7, 6,
    0, 0, 0, 7, 0, 7, 7, 6, 0, 7, 7, 6, 7, 6, 6, 5] ++
  [
    0, 0, 0, 0, 0, 0, 0, 0, 0, 0, 0, 0, 0, 0, 0, 0,
    0, 0, 0, 0, 0, 0, 0, 0, 0, 0, 0, 0, 0, 0, 0, 0,
    0, 0, 0, 0, 0, 0, 0, 0, 0, 0, 0, 0, 0, 0, 0, 0,
    0, 0, 0, 0, 0, 0, 0, 0, 0, 0, 0, 0, 0, 0, 0, 0,
    0, 0, 0, 0, 0, 0, 0, 0, 0, 0, 0, 0, 0, 0, 0, 0,
    0, 0, 0, 0, 0, 0, 0, 0, 0, 0, 0, 0, 0, 0, 0, 0,
    0, 0, 0, 0, 0, 0, 0, 0, 0, 0, 0, 0, 0, 0, 0, 0,
    0, 0, 0, 0, 0, 0, 0, 0, 0, 0, 0, 0, 0, 0, 0, 6,
    0, 0, 0, 0, 0, 0, 0, 0, 0, 0, 0, 0, 0, 0, 0, 0,
    0, 0, 0, 0, 0, 0, 0, 0, 0, 0, 0, 0, 0, 0, 0, 0,
    0, 0, 0, 0, 0, 0, 0, 0, 0, 0, 0, 0, 0, 0, 0, 0,
    0, 0, 0, 0, 0, 0, 0, 0, 0, 0, 0, 0, 0, 0, 0, 7,
    0, 0, 0, 0, 0, 0, 0, 0, 0, 0, 0, 0, 0, 0, 0, 0,
    0, 0, 0, 0, 0, 0, 0, 0, 0, 0, 0, 0, 0, 0, 0, 7,
    0, 0, 0, 0, 0, 0, 0, 0, 0, 0, 0, 0, 0, 0, 0, 7,
    0, 0, 0, 0, 0, 0, 0, 7, 0, 0, 0, 7, 0, 7, 7, 6] ++
  [
    0, 0, 0, 0, 0, 0, 0, 0, 0, 0, 0, 0, 0, 0, 0, 0,
    0, 0, 0, 0, 0, 0, 0, 0, 0, 0, 0, 0, 0, 0, 0, 0,
    0, 0, 0, 0, 0, 0, 0, 0, 0, 0, 0, 0, 0, 0, 0, 0,
    0, 0, 0, 0, 0, 0, 0, 0, 0, 0, 0, 0, 0, 0, 0, 0,
    0, 0, 0, 0, 0, 0, 0, 0, 0, 0, 0, 0, 0, 0, 0, 0,
    0, 0, 0, 0, 0, 0, 0, 0, 0, 0, 0, 0, 0, 0, 0, 0,
    0, 0, 0, 0, 0, 0, 0, 0, 0, 0, 0, 0, 0, 0, 0, 0,
    0, 0, 0, 0, 0, 0, 0, 0, 0, 0, 0, 0, 0, 0, 0, 0,
    0, 0, 0, 0, 0, 0, 0, 0, 0, 0, 0, 0, 0, 0, 0, 0,
    0, 0, 0, 0, 0, 0, 0, 0, 0, 0, 0, 0, 0, 0, 0, 0,
    0, 0, 0, 0, 0, 0, 0, 0, 0, 0, 0, 0, 0, 0, 0, 0,
    0, 0, 0, 0, 0, 0, 0, 0, 0, 0, 0, 0, 0, 0, 0, 0,
    0, 0, 0, 0, 0, 0, 0, 0, 0, 0, 0, 0, 0, 0, 0, 0,
    0, 0, 0, 0, 0, 0, 0, 0, 0, 0, 0, 0, 0, 0, 0, 0,
    0, 0, 0, 0, 0, 0, 0, 0, 0, 0, 0, 0, 0, 0, 0, 0,
    0, 0, 0, 0, 0, 0, 0, 0, 0, 0, 0, 0, 0, 0, 0, 7]

/-- Read of `kPrefixSumOverflow[k]`, `none` standing for an access outside the
array. -/
def prefix_sum_overflow_at (k : Nat) : Option Nat := readAt kPrefixSumOverflow k

/-- Read of `kSelectInByte[n]`, `none` standing for an access outside the array. -/
def select_in_byte_at (n : Nat) : Option Nat := readAt kSelectInByte n

/-- Position of the `j`-th set bit of `i` among the `n` positions from `p`
upwards, counting from zero, and `dflt` when there is no such bit. -/
def selectFrom (dflt i : Nat) : Nat → Nat → Nat → Nat
  | 0, _, _ => dflt
  | n + 1, p, j =>
    if i.testBit p then
      match j with
      | 0 => p
      | j + 1 => selectFrom dflt i n (p + 1) j
    else selectFrom dflt i n (p + 1) j

/-- Position of the `j`-th set bit of the byte `i`, counting from zero, and
`dflt` when `i` has no such bit. -/
def selectOr (dflt i j : Nat) : Nat := selectFrom dflt i 8 0 j

/-- Byte `b` of a 64-bit value. -/
def byteOf (x b : Nat) : Nat := (x >>> (8 * b)) &&& 255

/-! ## Part II: `fstshortestdistance.cc` -/

/-- Type and default value of a flag, one constructor per `DEFINE_*` form used. -/
inductive FlagValue where
  | bool (b : Bool)
  | double (d : ℚ)
  | int64 (i : Int)
  | string (s : String)
  deriving DecidableEq

/-- One `DEFINE_*(name, default, doc)` declaration. -/
structure FlagDecl where
  name : String
  default : FlagValue
  doc : String

/-- Library constants that the declarations refer to and whose definitions
(`fst/shortest-distance.h`, `fst/fst.h`) are not part of the sources at hand. -/
structure LibConsts where
  kShortestDelta : ℚ
  kNoStateId : Int

/-- The four declarations of `fstshortestdistance.cc`, in source order. -/
def commandFlags (c : LibConsts) : List FlagDecl :=
  [ { name := "reverse", default := .bool false, doc := "Perform in the reverse direction" },
    { name := "delta", default := .double c.kShortestDelta,
      doc := "Comparison/quantization delta" },
    { name := "nstate", default := .int64 c.kNoStateId, doc := "State number threshold" },
    { name := "queue_type", default := .string "auto",
      doc := "Queue type: one of \"auto\", \"fifo\", \"lifo\", \"shortest\", \"state\", \"top\"" } ]

/-- Declaration of the flag called `name`, if there is one. -/
def findFlag (c : LibConsts) (name : String) : Option FlagDecl :=
  (commandFlags c).find? (fun f => f.name == name)

/-- The double-quoted words of a text, in order of appearance. The accumulator
is `none` outside quotes and holds the characters read so far inside them. -/
def quotedWordsAux : List Char → Option (List Char) → List String
  | [], _ => []
  | c :: cs, none => if c = Char.ofNat 34 then quotedWordsAux cs (some []) else quotedWordsAux cs none
  | c :: cs, some acc =>
    if c = Char.ofNat 34 then String.mk acc.reverse :: quotedWordsAux cs none
    else quotedWordsAux cs (some (c :: acc))

/-- The values a documentation string lists between double quotes. -/
def documentedValues (doc : String) : List String := quotedWordsAux doc.data none

/-- Modelled from the spec: the flags library (`fst/flags.h`) is not part of the
sources at hand. The value of a flag in a run is the value given on the command
line, else the declared default. -/
def flagValue (c : LibConsts) (given : List (String × FlagValue)) (name : String) :
    Option FlagValue :=
  match given.find? (fun g => g.1 == name) with
  | some g => some g.2
  | none => (findFlag c name).map (fun f => f.default)

/-- Names of the declared flags, in source order. -/
def flagNames (c : LibConsts) : List String := (commandFlags c).map (fun f => f.name)

/-! ## Part III: the shortest-distance engine

The engine (`fst/shortest-distance.h`, `fstshortestdistance_main`) is not part
of the sources at hand; the definitions of this part follow the specification
of the engine, section by section. -/

/-- Modelled from the spec: the direction a run computes in, which the absent
`fstshortestdistance_main` selects from the `reverse` flag
("`reverse`: boolean, default false — selects direction"). -/
inductive Direction where
  | Forward
  | Reverse
  deriving DecidableEq

/-- Modelled from the spec: selection of the direction from the value of
`reverse`, done by the absent `fstshortestdistance_main`. -/
def directionOf : Option FlagValue → Option Direction
  | some (.bool true) => some .Reverse
  | some (.bool false) => some .Forward
  | _ => none

/-- Modelled from the spec: the visitation cap that the absent
`fstshortestdistance_main` derives from the state-limit flag ("`state_limit`:
integer, default unbounded sentinel — active-state visitation cap"); the
sentinel means no cap. -/
def stateLimitOf (c : LibConsts) : Option FlagValue → Option (Option Nat)
  | some (.int64 i) => some (if i = c.kNoStateId then none else some i.toNat)
  | _ => none

/-- Modelled from the spec: the weight algebra contract of §6 (the weight
types are not part of the sources at hand). `NaturalLess` is the optional
capability; `none` means the algebra does not advertise a natural order. -/
structure WeightAlgebra (W : Type) where
  Plus : W → W → W
  Times : W → W → W
  Zero : W
  One : W
  ApproxEqual : W → W → ℚ → Bool
  Member : W → Bool
  NaturalLess : Option (W → W → Bool)

/-- Modelled from the spec: the automaton view contract of §6 (the automaton
classes are not part of the sources at hand). States are the identifiers
`0 .. numStates - 1`; an arc is a weight and a destination. -/
structure Automaton (W : Type) where
  numStates : Nat
  Start : Option Nat
  Arcs : Nat → List (W × Nat)
  Final : Nat → W

/-- Modelled from the spec: the absent `Reverse()` of the view contract. Arcs are
flipped, the original states keep their identifiers, and the synthetic
super-source is the new state `numStates`, with one arc to each state carrying
that state's final weight; it is the start state of the reversed view. -/
def Automaton.Reverse {W : Type} (alg : WeightAlgebra W) (A : Automaton W) : Automaton W where
  numStates := A.numStates + 1
  Start := some A.numStates
  Arcs := fun t =>
    if t = A.numStates then (List.range A.numStates).map (fun s => (A.Final s, s))
    else (List.range A.numStates).flatMap (fun s =>
      (A.Arcs s).filterMap (fun a => if a.2 = t then some (a.1, s) else none))
  Final := fun t => if A.Start = some t then alg.One else alg.Zero

/-- Modelled from the spec: the six queue disciplines of §4.2. -/
inductive Discipline where
  | Fifo
  | Lifo
  | ShortestFirst
  | StateOrder
  | TopologicalOrder
  | Auto
  deriving DecidableEq

/-- Modelled from the spec: the configuration of a call (§4.1). -/
structure Config where
  delta : ℚ
  state_limit : Option Nat
  discipline : Discipline

/-- Modelled from the spec: the error taxonomy of §7. -/
inductive EngineError where
  | ConfigurationError
  | InvalidAutomaton
  | CyclicAutomaton
  | InvalidWeight
  deriving DecidableEq

/-- Modelled from the spec: what a call reports, the complete distance vector,
the partial one flagged Truncated, or an error (§4.1, §7). -/
inductive Result (W : Type) where
  | Ok (distance : List W)
  | Truncated (distance : List W)
  | Error (e : EngineError)
  deriving DecidableEq

/-- Distance vector of a result, if it carries one. -/
def Result.distances {W : Type} : Result W → Option (List W)
  | .Ok d => some d
  | .Truncated d => some d
  | .Error _ => none

/-- Modelled from the spec: a result together with the traversal counter of
§8, the number of arcs the relaxation has read from the view. -/
structure Outcome (W : Type) where
  result : Result W
  arcReads : Nat
  deriving DecidableEq

/-- Modelled from the spec: the mutable state a call owns (§3), the distance and
residual mappings, the active set in insertion order, the number of states
dequeued so far, and the traversal counter. -/
structure EngineState (W : Type) where
  distance : Nat → W
  residual : Nat → W
  active : List Nat
  dequeued : Nat
  arcReads : Nat

/-- Point update of a mapping from states to weights. -/
def upd {W : Type} (f : Nat → W) (s : Nat) (x : W) : Nat → W :=
  fun t => if t = s then x else f t

/-- The distance vector over the states `0 .. n - 1`. -/
def tabulate {W : Type} (n : Nat) (f : Nat → W) : List W := (List.range n).map f

/-- Modelled from the spec: a discipline once resolved (§4.2, §9), a plain
queue, a stack, a priority order keyed by the natural order, the state
identifiers, or a precomputed topological array. -/
inductive Queue (W : Type) where
  | fifo
  | lifo
  | shortest (less : W → W → Bool)
  | state
  | top (order : List Nat)

/-- The best element of a non-empty list `a :: rest`, where a later element
replaces the current best only when it is strictly better. -/
def pickBest (better : Nat → Nat → Bool) (a : Nat) (rest : List Nat) : Nat :=
  rest.foldl (fun best x => if better x best then x else best) a

/-- Modelled from the spec: the state a discipline removes next from the
non-empty active set `a :: rest` (§4.2, column "Removal order"). -/
def select {W : Type} (q : Queue W) (distance : Nat → W) (a : Nat) (rest : List Nat) : Nat :=
  match q with
  | .fifo => a
  | .lifo => (a :: rest).getLast (List.cons_ne_nil a rest)
  | .shortest less => pickBest (fun x b => less (distance x) (distance b)) a rest
  | .state => pickBest (fun x b => decide (x < b)) a rest
  | .top order => pickBest (fun x b => decide (order.indexOf x < order.indexOf b)) a rest

/-- Modelled from the spec: the precomputed topological order. States without
an arc into the remaining states are taken out one at a time and put in front
of the order; `none` when states remain but none can be taken out, which is the
case of a cycle. -/
def topoFrom {W : Type} (A : Automaton W) : Nat → List Nat → List Nat → Option (List Nat)
  | 0, remaining, acc => if remaining.isEmpty then some acc else none
  | fuel + 1, remaining, acc =>
    match remaining.find? (fun s => (A.Arcs s).all (fun a => !remaining.contains a.2)) with
    | none => if remaining.isEmpty then some acc else none
    | some s => topoFrom A fuel (remaining.erase s) (s :: acc)

/-- Modelled from the spec: the topological order of all states (§4.2), `none`
for a cyclic automaton. -/
def topologicalOrder {W : Type} (A : Automaton W) : Option (List Nat) :=
  topoFrom A A.numStates (List.range A.numStates) []

/-- Modelled from the spec: the one-time resolution of the discipline (§4.2).
ShortestFirst needs the natural order, TopologicalOrder an acyclic automaton,
and Auto is ShortestFirst if the natural order is available, else
TopologicalOrder if the automaton is acyclic, else Fifo. -/
def resolve {W : Type} (alg : WeightAlgebra W) (A : Automaton W) :
    Discipline → Except EngineError (Queue W)
  | .Fifo => .ok .fifo
  | .Lifo => .ok .lifo
  | .ShortestFirst =>
    match alg.NaturalLess with
    | some less => .ok (.shortest less)
    | none => .error .ConfigurationError
  | .StateOrder => .ok .state
  | .TopologicalOrder =>
    match topologicalOrder A with
    | some order => .ok (.top order)
    | none => .error .CyclicAutomaton
  | .Auto =>
    match alg.NaturalLess with
    | some less => .ok (.shortest less)
    | none =>
      match topologicalOrder A with
      | some order => .ok (.top order)
      | none => .ok .fifo

/-- Modelled from the spec: step 3c of §4.1 for one arc `(w, t)` of the state
being relaxed. The arc read is counted; a destination that is not a state is
`InvalidAutomaton`, a weight failing the validity test is `InvalidWeight`. -/
def relaxArc {W : Type} (alg : WeightAlgebra W) (delta : ℚ) (n : Nat) (carried : W)
    (st : EngineState W) (arc : W × Nat) : Except (Outcome W) (EngineState W) :=
  let w := arc.1
  let t := arc.2
  let reads := st.arcReads + 1
  if n ≤ t then .error ⟨.Error .InvalidAutomaton, reads⟩
  else if !alg.Member w then .error ⟨.Error .InvalidWeight, reads⟩
  else
    let contribution := alg.Times carried w
    let candidate := alg.Plus (st.distance t) contribution
    if !alg.Member contribution || !alg.Member candidate then
      .error ⟨.Error .InvalidWeight, reads⟩
    else if alg.ApproxEqual candidate (st.distance t) delta then
      .ok { st with arcReads := reads }
    else
      .ok { distance := upd st.distance t candidate
            residual := upd st.residual t (alg.Plus (st.residual t) contribution)
            active := if t ∈ st.active then st.active else st.active ++ [t]
            dequeued := st.dequeued
            arcReads := reads }

/-- Modelled from the spec: step 3c of §4.1 over the outgoing arcs of a state,
in the order the view gives them. -/
def relaxArcs {W : Type} (alg : WeightAlgebra W) (delta : ℚ) (n : Nat) (carried : W) :
    EngineState W → List (W × Nat) → Except (Outcome W) (EngineState W)
  | st, [] => .ok st
  | st, a :: rest =>
    match relaxArc alg delta n carried st a with
    | .error o => .error o
    | .ok st1 => relaxArcs alg delta n carried st1 rest

/-- Modelled from the spec: the cap test of step 3 of §4.1, the number of states
dequeued so far exceeds `state_limit`, if set. -/
def capExceeded (limit : Option Nat) (dequeued : Nat) : Bool :=
  match limit with
  | none => false
  | some k => decide (k < dequeued)

/-- Modelled from the spec: steps 3 and 4 of §4.1. `fuel` bounds the number of
iterations of the model, `none` meaning the bound was hit while the engine was
still running. -/
def relaxLoop {W : Type} (alg : WeightAlgebra W) (A : Automaton W) (cfg : Config)
    (q : Queue W) : Nat → EngineState W → Option (Outcome W)
  | 0, _ => none
  | fuel + 1, st =>
    match st.active with
    | [] => some ⟨.Ok (tabulate A.numStates st.distance), st.arcReads⟩
    | a :: rest =>
      if capExceeded cfg.state_limit st.dequeued then
        some ⟨.Truncated (tabulate A.numStates st.distance), st.arcReads⟩
      else
        let s := select q st.distance a rest
        let carried := st.residual s
        let st1 : EngineState W :=
          { distance := st.distance
            residual := upd st.residual s alg.Zero
            active := (a :: rest).erase s
            dequeued := st.dequeued + 1
            arcReads := st.arcReads }
        match relaxArcs alg cfg.delta A.numStates carried st1 (A.Arcs s) with
        | .error o => some o
        | .ok st2 => relaxLoop alg A cfg q fuel st2

/-- Modelled from the spec: step 2 of §4.1. -/
def initState {W : Type} (alg : WeightAlgebra W) (s0 : Nat) : EngineState W where
  distance := upd (fun _ => alg.Zero) s0 alg.One
  residual := upd (fun _ => alg.Zero) s0 alg.One
  active := [s0]
  dequeued := 0
  arcReads := 0

/-- Modelled from the spec: the engine on the view it operates on, the
discipline resolved first, then the start state checked, then steps 2 to 4. -/
def run {W : Type} (alg : WeightAlgebra W) (A : Automaton W) (cfg : Config) (fuel : Nat) :
    Option (Outcome W) :=
  match resolve alg A cfg.discipline with
  | .error e => some ⟨.Error e, 0⟩
  | .ok q =>
    match A.Start with
    | none => some ⟨.Error .InvalidAutomaton, 0⟩
    | some s0 =>
      if A.numStates ≤ s0 then some ⟨.Error .InvalidAutomaton, 0⟩
      else relaxLoop alg A cfg q fuel (initState alg s0)

/-- Modelled from the spec: step 5 of §4.1, the entries of the original states
without the entry of the super-source. -/
def remap {W : Type} (n : Nat) : Result W → Result W
  | .Ok d => .Ok (d.take n)
  | .Truncated d => .Truncated (d.take n)
  | .Error e => .Error e

/-- Modelled from the spec: `compute(automaton, direction, config)` of §4.1.
A bad discipline/algebra combination is reported before the automaton is
looked at; Reverse operates on the reversal and maps the result back. -/
def compute {W : Type} (fuel : Nat) (alg : WeightAlgebra W) (A : Automaton W)
    (direction : Direction) (cfg : Config) : Option (Outcome W) :=
  if cfg.discipline = .ShortestFirst ∧ alg.NaturalLess.isNone then
    some ⟨.Error .ConfigurationError, 0⟩
  else
    match direction with
    | .Forward => run alg A cfg fuel
    | .Reverse =>
      (run alg (A.Reverse alg) cfg fuel).map
        (fun o => ⟨remap A.numStates o.result, o.arcReads⟩)

/-! ### Concrete algebras and automata used as test inputs -/

/-- The tropical (min, +) algebra over the rationals, `none` being the infinite
weight Zero; approximate equality is equality up to the tolerance. -/
def tropical : WeightAlgebra (Option ℚ) where
  Plus := fun a b =>
    match a, b with
    | none, b => b
    | some x, none => some x
    | some x, some y => some (min x y)
  Times := fun a b =>
    match a, b with
    | some x, some y => some (x + y)
    | _, _ => none
  Zero := none
  One := some 0
  ApproxEqual := fun a b d =>
    match a, b with
    | none, none => true
    | some x, some y => decide (x ≤ y + d) && decide (y ≤ x + d)
    | _, _ => false
  Member := fun _ => true
  NaturalLess := some (fun a b =>
    match a, b with
    | some x, some y => decide (x < y)
    | some _, none => true
    | none, _ => false)

/-- The tropical algebra with exact comparison, whatever the tolerance. -/
def tropicalExact : WeightAlgebra (Option ℚ) :=
  { tropical with ApproxEqual := fun a b _ => decide (a = b) }

/-- The probability (+, ×) algebra over the rationals; it advertises no natural
order and its valid weights are the non-negative ones. -/
def probability : WeightAlgebra ℚ where
  Plus := fun a b => a + b
  Times := fun a b => a * b
  Zero := 0
  One := 1
  ApproxEqual := fun a b d => decide (a ≤ b + d) && decide (b ≤ a + d)
  Member := fun a => decide (0 ≤ a)
  NaturalLess := none

/-- The two-state chain `0 --w--> 1` with start state 0 and final state 1. -/
def chain {W : Type} (alg : WeightAlgebra W) (w : W) : Automaton W where
  numStates := 2
  Start := some 0
  Arcs := fun s => if s = 0 then [(w, 1)] else []
  Final := fun s => if s = 1 then alg.One else alg.Zero

/-- Four states, two paths from state 0 to state 3 whose weights differ by less
than the tolerance 1/1024. -/
def diamond : Automaton (Option ℚ) where
  numStates := 4
  Start := some 0
  Arcs := fun s =>
    match s with
    | 0 => [(some 0, 1), (some 0, 2)]
    | 1 => [(some 10, 3)]
    | 2 => [(some (10 - 1 / 2048), 3)]
    | _ => []
  Final := fun s => if s = 3 then some 0 else none

/-- Four states, two paths from state 0 to state 3, of the integer weights 11
and 9. -/
def intDiamond : Automaton (Option ℚ) where
  numStates := 4
  Start := some 0
  Arcs := fun s =>
    match s with
    | 0 => [(some 1, 1), (some 2, 2)]
    | 1 => [(some 10, 3)]
    | 2 => [(some 7, 3)]
    | _ => []
  Final := fun s => if s = 3 then some 0 else none

/-- Entry of state `s` in the distance vector a call returned, if it returned one. -/
def distanceAt {W : Type} (o : Option (Outcome W)) (s : Nat) : Option W :=
  match o with
  | some ⟨.Ok d, _⟩ => d[s]?
  | some ⟨.Truncated d, _⟩ => d[s]?
  | _ => none

/-- Kind of report of a call: 0 complete, 1 truncated, 2 error, 3 still running. -/
def reportKind {W : Type} (o : Option (Outcome W)) : Nat × Option EngineError :=
  match o with
  | some ⟨.Ok _, _⟩ => (0, none)
  | some ⟨.Truncated _, _⟩ => (1, none)
  | some ⟨.Error e, _⟩ => (2, some e)
  | none => (3, none)

/-- State `t` is the destination of an arc of `s0`, or of an arc of a
destination of an arc of `s0`. -/
def withinTwoArcs {W : Type} (A : Automaton W) (s0 t : Nat) : Prop :=
  (∃ a ∈ A.Arcs s0, a.2 = t) ∨ ∃ a ∈ A.Arcs s0, ∃ b ∈ A.Arcs a.2, b.2 = t

/-- The semiring laws of the weight algebra that the order-independence of the
relaxation rests on, with the closure of the valid weights under them. -/
structure Lawful {W : Type} (alg : WeightAlgebra W) : Prop where
  plus_assoc : ∀ a b c, alg.Plus (alg.Plus a b) c = alg.Plus a (alg.Plus b c)
  plus_comm : ∀ a b, alg.Plus a b = alg.Plus b a
  plus_zero : ∀ a, alg.Plus a alg.Zero = a
  zero_times : ∀ a, alg.Times alg.Zero a = alg.Zero
  right_distrib : ∀ a b c, alg.Times (alg.Plus a b) c = alg.Plus (alg.Times a c) (alg.Times b c)
  member_zero : alg.Member alg.Zero = true
  member_one : alg.Member alg.One = true
  member_plus : ∀ a b, alg.Member a = true → alg.Member b = true →
    alg.Member (alg.Plus a b) = true
  member_times : ∀ a b, alg.Member a = true → alg.Member b = true →
    alg.Member (alg.Times a b) = true

/-- The algebra is idempotent: `a ⊕ a = a`. -/
def Idempotent {W : Type} (alg : WeightAlgebra W) : Prop := ∀ a, alg.Plus a a = a

/-- The approximate-equality test at tolerance `delta` is equality. -/
def ExactAt {W : Type} (alg : WeightAlgebra W) (delta : ℚ) : Prop :=
  ∀ a b, alg.ApproxEqual a b delta = true ↔ a = b

/-- State `s` has an arc to `t`. -/
def HasArc {W : Type} (A : Automaton W) (s t : Nat) : Prop :=
  s < A.numStates ∧ ∃ a ∈ A.Arcs s, a.2 = t

/-- No state reaches itself along one or more arcs. -/
def Acyclic {W : Type} (A : Automaton W) : Prop :=
  ∀ s, ¬ Relation.TransGen (HasArc A) s s

/-- The start state is a state and every arc of a state leads to a state. -/
def WellFormed {W : Type} (A : Automaton W) : Prop :=
  (∃ s0, A.Start = some s0 ∧ s0 < A.numStates) ∧
    ∀ s, s < A.numStates → ∀ a ∈ A.Arcs s, a.2 < A.numStates

/-- Every arc weight passes the validity test. -/
def ValidWeights {W : Type} (alg : WeightAlgebra W) (A : Automaton W) : Prop :=
  ∀ s, s < A.numStates → ∀ a ∈ A.Arcs s, alg.Member a.1 = true

/-- The weights the relaxation can accumulate at a state: Zero, One at the start
state, a weight accumulated at the source of an arc times the arc weight, and
sums of such. -/
inductive Accum {W : Type} (alg : WeightAlgebra W) (A : Automaton W) : Nat → W → Prop where
  | zero (t : Nat) : Accum alg A t alg.Zero
  | one (s0 : Nat) (h : A.Start = some s0) : Accum alg A s0 alg.One
  | arc (s : Nat) (x : W) (a : W × Nat) (hs : s < A.numStates) (ha : a ∈ A.Arcs s)
      (hx : Accum alg A s x) : Accum alg A a.2 (alg.Times x a.1)
  | plus (t : Nat) (x y : W) (hx : Accum alg A t x) (hy : Accum alg A t y) :
      Accum alg A t (alg.Plus x y)

/-- No two different weights that the relaxation can accumulate at one and the
same state are approximately equal at tolerance `delta`. -/
def Separated {W : Type} (alg : WeightAlgebra W) (A : Automaton W) (delta : ℚ) : Prop :=
  ∀ t a b, Accum alg A t a → Accum alg A t b → alg.ApproxEqual a b delta = true → a = b

/-- The view the engine operates on in a direction (step 1 of §4.1). -/
def operatedView {W : Type} (alg : WeightAlgebra W) (A : Automaton W) :
    Direction → Automaton W
  | .Forward => A
  | .Reverse => A.Reverse alg

/-- A tropical weight that is infinite or an integer. -/
def IntegerWeight (x : Option ℚ) : Prop := x = none ∨ ∃ z : ℤ, x = some (z : ℚ)

/-- Every arc weight of the automaton is infinite or an integer. -/
def IntegerArcs (A : Automaton (Option ℚ)) : Prop :=
  ∀ s, s < A.numStates → ∀ a ∈ A.Arcs s, IntegerWeight a.1

/-- The valid weights contain Zero and One and are closed under Plus and Times. -/
structure ValidClosed {W : Type} (alg : WeightAlgebra W) : Prop where
  member_zero : alg.Member alg.Zero = true
  member_one : alg.Member alg.One = true
  member_plus : ∀ a b, alg.Member a = true → alg.Member b = true →
    alg.Member (alg.Plus a b) = true
  member_times : ∀ a b, alg.Member a = true → alg.Member b = true →
    alg.Member (alg.Times a b) = true

/-- What every relaxation step keeps of the state, whatever the algebra: the
distances and residuals are accumulated weights and the active states are
states. -/
structure ValidState {W : Type} (alg : WeightAlgebra W) (A : Automaton W)
    (st : EngineState W) : Prop where
  acc_d : ∀ t, Accum alg A t (st.distance t)
  acc_r : ∀ t, Accum alg A t (st.residual t)
  lt : ∀ s ∈ st.active, s < A.numStates

/-- The start state `s0` has arcs to two different states other than itself. -/
def TwoSuccessors {W : Type} (A : Automaton W) (s0 : Nat) : Prop :=
  ∃ a ∈ A.Arcs s0, ∃ b ∈ A.Arcs s0, a.2 ≠ b.2 ∧ a.2 ≠ s0 ∧ b.2 ≠ s0

/-- Relaxing an arc of the start state from Zero is not skipped: the candidate
`Zero ⊕ (One ⊗ w)` is not approximately equal to Zero at tolerance `delta`. -/
def StartArcsEffective {W : Type} (alg : WeightAlgebra W) (A : Automaton W) (s0 : Nat)
    (delta : ℚ) : Prop :=
  ∀ a ∈ A.Arcs s0,
    alg.ApproxEqual (alg.Plus alg.Zero (alg.Times alg.One a.1)) alg.Zero delta = false

/-- A distance mapping that relaxation cannot change any more: the start entry
absorbs One and the entry of every arc's destination absorbs the entry of its
source times the arc weight. -/
def Closed {W : Type} (alg : WeightAlgebra W) (A : Automaton W) (d : Nat → W) : Prop :=
  (∀ s0, A.Start = some s0 → alg.Plus (d s0) alg.One = d s0) ∧
    ∀ s, s < A.numStates → ∀ a ∈ A.Arcs s,
      alg.Plus (d a.2) (alg.Times (d s) a.1) = d a.2

/-- The five disciplines other than Auto. -/
def fiveDisciplines : List Discipline :=
  [.Fifo, .Lifo, .ShortestFirst, .StateOrder, .TopologicalOrder]

/-- Invariant of the relaxation loop between two dequeues. The mapping `p` is
the part of each distance already propagated along the arcs of its state. -/
structure LoopInv {W : Type} (alg : WeightAlgebra W) (A : Automaton W) (st : EngineState W) :
    Prop where
  acc_d : ∀ t, Accum alg A t (st.distance t)
  acc_r : ∀ t, Accum alg A t (st.residual t)
  start : ∀ s0, A.Start = some s0 → alg.Plus (st.distance s0) alg.One = st.distance s0
  nodup : st.active.Nodup
  lt : ∀ s ∈ st.active, s < A.numStates
  idle : ∀ s, s ∉ st.active → st.residual s = alg.Zero
  ghost : ∃ p : Nat → W, (∀ u, st.distance u = alg.Plus (p u) (st.residual u)) ∧
    ∀ u, u < A.numStates → ∀ a ∈ A.Arcs u,
      alg.Plus (st.distance a.2) (alg.Times (p u) a.1) = st.distance a.2

/-- Invariant while the arcs of the dequeued state `s` are relaxed with the
carried weight `c`, the arcs in `todo` still being ahead. -/
structure ArcInv {W : Type} (alg : WeightAlgebra W) (A : Automaton W) (s : Nat) (c : W)
    (todo : List (W × Nat)) (st : EngineState W) : Prop where
  acc_d : ∀ t, Accum alg A t (st.distance t)
  acc_r : ∀ t, Accum alg A t (st.residual t)
  start : ∀ s0, A.Start = some s0 → alg.Plus (st.distance s0) alg.One = st.distance s0
  nodup : st.active.Nodup
  lt : ∀ s ∈ st.active, s < A.numStates
  idle : ∀ s, s ∉ st.active → st.residual s = alg.Zero
  hs : s < A.numStates
  acc_c : Accum alg A s c
  ghost : ∃ p : Nat → W, (∀ u, st.distance u = alg.Plus (p u) (st.residual u)) ∧
    (∀ u, u < A.numStates → u ≠ s → ∀ a ∈ A.Arcs u,
      alg.Plus (st.distance a.2) (alg.Times (p u) a.1) = st.distance a.2) ∧
    (∀ a ∈ A.Arcs s, a ∈ todo ∨
      alg.Plus (st.distance a.2) (alg.Times (p s) a.1) = st.distance a.2) ∧
    ∃ pold : W, p s = alg.Plus pold c ∧ ∀ a ∈ A.Arcs s,
      alg.Plus (st.distance a.2) (alg.Times pold a.1) = st.distance a.2

/-- Termination measure of the relaxation on an automaton with `n` states
ranked by `rank`: an active state of rank `r` weighs `(n + 1) ^ r`. -/
def potential (n : Nat) (rank : Nat → Nat) (active : List Nat) : Nat :=
  Finset.sum (Finset.range n) (fun t => if t ∈ active then (n + 1) ^ rank t else 0)

/-- Every final weight passes the validity test. -/
def ValidFinals {W : Type} (alg : WeightAlgebra W) (A : Automaton W) : Prop :=
  ∀ s, s < A.numStates → alg.Member (A.Final s) = true

/-! ## Theorems -/

/-! ### Part I -/

set_option maxRecDepth 10000 in
theorem nth_bit_eq_stanzas (v r : Nat) : nth_bit v r = stanzas v 8 0 r := by
  unfold nth_bit
  simp only [stanzas, Nat.shiftRight_zero, Nat.mul_zero,
    Nat.zero_add, Nat.mul_one, Nat.reduceMul, Nat.reduceAdd]

theorem readAt_eq_getElem? (l : List Nat) : ∀ n, readAt l n = l[n]? := by
  induction l with
  | nil => intro n; simp [readAt]
  | cons x xs ih =>
    intro n
    cases n with
    | zero => simp [readAt]
    | succ n => simp [readAt, ih]

set_option maxRecDepth 100000 in
theorem tbl_count_row :
    nth_bit_bit_count = (List.range 256).map (fun b => countBelow b 8) := by
  decide!

set_option maxRecDepth 100000 in
theorem tbl_pos_rows :
    nth_bit_bit_pos =
      (List.range 8).map (fun r => (List.range 256).map (fun b => selectOr 255 b r)) := by
  decide!

theorem bit_pos_at_eq (r b : Nat) (hr : r < 8) (hb : b < 256) :
    bit_pos_at r b = some (selectOr 255 b r) := by
  unfold bit_pos_at
  rw [tbl_pos_rows, List.get?_eq_getElem?, List.getElem?_map, List.getElem?_range hr]
  simp [readAt_eq_getElem?, List.getElem?_range hb]

set_option maxRecDepth 100000 in
theorem selectOr_255_spec : ∀ i < 256, ∀ j < 8,
    (j < countBelow i 8 → selectOr 255 i j < 8 ∧ i.testBit (selectOr 255 i j) = true ∧
      countBelow i (selectOr 255 i j) = j) ∧
    (¬ j < countBelow i 8 → selectOr 255 i j = 255) := by
  decide!

theorem tbl_count : ∀ b < 256, bit_count_at b = some (countBelow b 8) := by
  intro b hb
  unfold bit_count_at
  rw [tbl_count_row, readAt_eq_getElem?, List.getElem?_map, List.getElem?_range hb]
  rfl


theorem tbl_pos : ∀ b < 256, ∀ r < 8, r < countBelow b 8 → bytePosOk r b = true := by
  intro b hb r hr hlt
  obtain ⟨h1, h2, h3⟩ := (selectOr_255_spec b hb r hr).1 hlt
  simp [bytePosOk, bit_pos_at_eq r b hr hb, h1, h2, h3]

theorem U32_val : U32 = 4294967296 := by norm_num [U32]

theorem countBelow_le (v p : Nat) : countBelow v p ≤ p := by
  induction p with
  | zero => simp [countBelow]
  | succ p ih => simp only [countBelow]; split <;> omega

theorem countBelow_mono (v : Nat) {p q : Nat} (h : p ≤ q) : countBelow v p ≤ countBelow v q := by
  induction h with
  | refl => exact Nat.le_refl _
  | step _ ih => simp only [countBelow]; omega

theorem countBelow_add (v a p : Nat) :
    countBelow v (a + p) = countBelow v a + countBelow (v >>> a) p := by
  induction p with
  | zero => simp [countBelow]
  | succ p ih =>
    rw [← Nat.add_assoc]
    simp only [countBelow, ih, Nat.testBit_shiftRight, Nat.add_assoc]

theorem testBit_and_255 (x i : Nat) (hi : i < 8) : (x &&& 255).testBit i = x.testBit i := by
  have h : (255 : Nat) = 2 ^ 8 - 1 := by norm_num
  rw [Nat.testBit_and, h, Nat.testBit_two_pow_sub_one]
  simp [hi]

theorem countBelow_and_255 (x p : Nat) (hp : p ≤ 8) :
    countBelow (x &&& 255) p = countBelow x p := by
  induction p with
  | zero => simp [countBelow]
  | succ p ih =>
    simp only [countBelow, ih (by omega), testBit_and_255 x p (by omega)]

theorem and_255_lt (x : Nat) : x &&& 255 < 256 := by
  have := @Nat.and_le_right x 255
  omega

theorem bytePosOk_elim {r b : Nat} (h : bytePosOk r b = true) :
    ∃ e, bit_pos_at r b = some e ∧ e < 8 ∧ b.testBit e = true ∧ countBelow b e = r := by
  unfold bytePosOk at h
  cases hb : bit_pos_at r b with
  | none => simp [hb] at h
  | some e =>
    simp only [hb, Bool.and_eq_true, decide_eq_true_eq, beq_iff_eq] at h
    exact ⟨e, rfl, h.1.1, h.1.2, h.2⟩

theorem stanzas_spec (v r0 : Nat) (hr0 : r0 < countBelow v 64) :
    ∀ n k r, n + k = 8 → r + countBelow v (8 * k) = r0 →
      ∃ j e, j < 8 ∧ countBelow v (8 * j) ≤ r0 ∧ r0 - countBelow v (8 * j) < 8 ∧
        bit_pos_at (r0 - countBelow v (8 * j)) ((v >>> (8 * j)) &&& 255) = some e ∧ e < 8 ∧
        stanzas v n k r = some (8 * j + e) ∧ v.testBit (8 * j + e) = true ∧
        countBelow v (8 * j + e) = r0 := by
  intro n
  induction n with
  | zero =>
    intro k r hk hr
    have : k = 8 := by omega
    subst this
    have h88 : 8 * 8 = 64 := rfl
    rw [h88] at hr
    omega
  | succ n ih =>
    intro k r hk hr
    have hb : (v >>> (8 * k)) &&& 255 < 256 := and_255_lt _
    have hmod : ((v >>> (8 * k)) &&& 255) % U32 = (v >>> (8 * k)) &&& 255 :=
      Nat.mod_eq_of_lt (by rw [U32_val]; omega)
    have hcnt := tbl_count _ hb
    have hc8 : countBelow ((v >>> (8 * k)) &&& 255) 8 = countBelow (v >>> (8 * k)) 8 :=
      countBelow_and_255 _ 8 (Nat.le_refl _)
    have hnext : countBelow v (8 * (k + 1)) = countBelow v (8 * k) + countBelow (v >>> (8 * k)) 8 := by
      rw [Nat.mul_add, Nat.mul_one, countBelow_add]
    have hle8 := countBelow_le (v >>> (8 * k)) 8
    have h64 := countBelow_le v 64
    simp only [stanzas, hmod, hcnt, Option.bind_eq_bind, Option.some_bind, hc8]
    by_cases hlt : r < countBelow (v >>> (8 * k)) 8
    · obtain ⟨e, he, he8, hbit, hcb⟩ :=
        bytePosOk_elim (tbl_pos _ hb r (by omega) (by rw [hc8]; exact hlt))
      have hrow : r0 - countBelow v (8 * k) = r := by omega
      refine ⟨k, e, by omega, by omega, by omega, by rw [hrow]; exact he, he8, ?_, ?_, ?_⟩
      · have hm : (8 * k + e) % U32 = 8 * k + e :=
          Nat.mod_eq_of_lt (by rw [U32_val]; omega)
        simp only [hlt, if_true, he, Option.some_bind, hm]
        rfl
      · rw [← Nat.testBit_shiftRight, ← testBit_and_255 _ _ he8]; exact hbit
      · rw [countBelow_add, ← countBelow_and_255 _ _ (Nat.le_of_lt he8), hcb]; omega
    · simp only [hlt, if_false]
      have hsub : sub32 r (countBelow (v >>> (8 * k)) 8) = r - countBelow (v >>> (8 * k)) 8 := by
        unfold sub32
        rw [U32_val, Nat.mod_eq_of_lt (by omega : countBelow (v >>> (8 * k)) 8 < 4294967296)]
        omega
      rw [hsub]
      exact ih (k + 1) _ (by omega) (by rw [hnext]; omega)

/-- C1: for every 64-bit word `v ≠ 0` and every `r < popcount(v)`, `nth_bit v r`
returns a position `p` such that bit `p` of `v` is set and exactly `r` set bits
of `v` lie strictly below `p`. -/
theorem nth_bit_selects_rth_set_bit (v r : Nat) (_hv : v < 2 ^ 64) (_hne : v ≠ 0)
    (hr : r < popcountll v) :
    ∃ p, nth_bit v r = some p ∧ v.testBit p = true ∧ countBelow v p = r := by
  obtain ⟨j, e, -, -, -, -, -, hres, hbit, hcnt⟩ :=
    stanzas_spec v r hr 8 0 r rfl (by simp [countBelow])
  exact ⟨8 * j + e, by rw [nth_bit_eq_stanzas]; exact hres, hbit, hcnt⟩

theorem nth_bit_selects_rth_set_bit_witness :
    ∃ p, nth_bit 0x8000000000000005 2 = some p ∧
      (0x8000000000000005 : Nat).testBit p = true ∧ countBelow 0x8000000000000005 p = 2 :=
  nth_bit_selects_rth_set_bit 0x8000000000000005 2 (by norm_num) (by norm_num)
    (by decide)

/-- C2: under the asserted precondition of `nth_bit`, every table access is in
bounds (the function yields a value, and the row read is below 8, the column
below 256), the entry returned is not the sentinel 255, the result is not the
final `-1`, and it is below 64. -/
theorem nth_bit_in_bounds (v r : Nat) (_hv : v < 2 ^ 64) (_hne : v ≠ 0)
    (hr : r < popcountll v) :
    ∃ j e, j < 8 ∧ r - countBelow v (8 * j) < 8 ∧ (v >>> (8 * j)) &&& 255 < 256 ∧
      bit_pos_at (r - countBelow v (8 * j)) ((v >>> (8 * j)) &&& 255) = some e ∧
      e ≠ 255 ∧ nth_bit v r = some (8 * j + e) ∧ 8 * j + e ≠ U32 - 1 ∧ 8 * j + e < 64 := by
  obtain ⟨j, e, hj, -, hrow, hpos, he, hres, -, -⟩ :=
    stanzas_spec v r hr 8 0 r rfl (by simp [countBelow])
  refine ⟨j, e, hj, hrow, and_255_lt _, hpos, by omega, ?_, ?_, by omega⟩
  · rw [nth_bit_eq_stanzas]; exact hres
  · rw [U32_val]; omega

theorem nth_bit_in_bounds_witness :
    ∃ j e, j < 8 ∧ 1 - countBelow 0xF000 (8 * j) < 8 ∧ (0xF000 >>> (8 * j)) &&& 255 < 256 ∧
      bit_pos_at (1 - countBelow 0xF000 (8 * j)) ((0xF000 >>> (8 * j)) &&& 255) = some e ∧
      e ≠ 255 ∧ nth_bit 0xF000 1 = some (8 * j + e) ∧ 8 * j + e ≠ U32 - 1 ∧ 8 * j + e < 64 :=
  nth_bit_in_bounds 0xF000 1 (by norm_num) (by norm_num) (by decide)

/-! ### Proofs for Part II -/

/-- C3: the queue-discipline option is declared with the default value "auto",
and the values its declaration documents are exactly auto, fifo, lifo,
shortest, state, top. -/
theorem queue_type_default_and_values (c : LibConsts) :
    (findFlag c "queue_type").map (fun f => f.default) = some (.string "auto") ∧
    (findFlag c "queue_type").map (fun f => documentedValues f.doc) =
      some ["auto", "fifo", "lifo", "shortest", "state", "top"] :=
  ⟨rfl, rfl⟩

/-- C4: the direction option `reverse` is a boolean whose default value is
false, and a run with no options computes in the forward direction. -/
theorem reverse_default_false (c : LibConsts) :
    (findFlag c "reverse").map (fun f => f.default) = some (.bool false) ∧
    directionOf (flagValue c [] "reverse") = some .Forward :=
  ⟨rfl, rfl⟩

/-- C5: the state-limit option is a 64-bit integer option whose default value
is `kNoStateId`, and a run with no options applies no visitation cap. -/
theorem nstate_default_no_state_id (c : LibConsts) :
    (findFlag c "nstate").map (fun f => f.default) = some (.int64 c.kNoStateId) ∧
    stateLimitOf c (flagValue c [] "nstate") = some none := by
  refine ⟨rfl, ?_⟩
  have h : flagValue c [] "nstate" = some (.int64 c.kNoStateId) := rfl
  rw [h]
  simp [stateLimitOf]

/-! ### Proofs for Part III -/

/-- C8: for every automaton, direction and fuel, requesting ShortestFirst with
an algebra that does not advertise a natural order makes `compute` fail with
ConfigurationError, with a traversal counter of zero. -/
theorem shortest_first_needs_natural_order {W : Type} (fuel : Nat) (alg : WeightAlgebra W)
    (A : Automaton W) (direction : Direction) (cfg : Config)
    (hd : cfg.discipline = .ShortestFirst) (hn : alg.NaturalLess = none) :
    compute fuel alg A direction cfg = some ⟨.Error .ConfigurationError, 0⟩ := by
  simp [compute, hd, hn]

theorem shortest_first_needs_natural_order_witness :
    compute 5 probability (chain probability (1 / 2)) .Forward ⟨1 / 1024, none, .ShortestFirst⟩ =
      some ⟨.Error .ConfigurationError, 0⟩ :=
  shortest_first_needs_natural_order 5 probability (chain probability (1 / 2)) .Forward
    ⟨1 / 1024, none, .ShortestFirst⟩ rfl rfl

theorem distanceAt_map_remap {W : Type} (n s : Nat) (hs : s < n) (o : Option (Outcome W)) :
    distanceAt (o.map (fun o => ⟨remap n o.result, o.arcReads⟩)) s = distanceAt o s := by
  cases o with
  | none => rfl
  | some o =>
    obtain ⟨r, k⟩ := o
    cases r <;> simp [distanceAt, remap, List.getElem?_take, hs]

theorem reportKind_map_remap {W : Type} (n : Nat) (o : Option (Outcome W)) :
    reportKind (o.map (fun o => ⟨remap n o.result, o.arcReads⟩)) = reportKind o := by
  cases o with
  | none => rfl
  | some o =>
    obtain ⟨r, k⟩ := o
    cases r <;> rfl

/-- C9: `compute(A, Reverse, cfg)` and `compute(A.Reverse(), Forward, cfg)` give
the same kind of report and, at every state identifier of `A` (the identifiers
the two results share), the same distance entry. -/
theorem reverse_round_trip {W : Type} (fuel : Nat) (alg : WeightAlgebra W) (A : Automaton W)
    (cfg : Config) (s : Nat) (hs : s < A.numStates) :
    reportKind (compute fuel alg A .Reverse cfg) =
      reportKind (compute fuel alg (A.Reverse alg) .Forward cfg) ∧
    distanceAt (compute fuel alg A .Reverse cfg) s =
      distanceAt (compute fuel alg (A.Reverse alg) .Forward cfg) s := by
  unfold compute
  split
  · exact ⟨rfl, rfl⟩
  · exact ⟨reportKind_map_remap _ _, distanceAt_map_remap _ _ hs _⟩

theorem reverse_round_trip_witness :
    reportKind (compute 20 tropical diamond .Reverse ⟨1 / 1024, none, .Fifo⟩) =
      reportKind (compute 20 tropical (diamond.Reverse tropical) .Forward
        ⟨1 / 1024, none, .Fifo⟩) ∧
    distanceAt (compute 20 tropical diamond .Reverse ⟨1 / 1024, none, .Fifo⟩) 0 =
      distanceAt (compute 20 tropical (diamond.Reverse tropical) .Forward
        ⟨1 / 1024, none, .Fifo⟩) 0 :=
  reverse_round_trip 20 tropical diamond ⟨1 / 1024, none, .Fifo⟩ 0 (by decide)

theorem select_single {W : Type} (q : Queue W) (d : Nat → W) (a : Nat) : select q d a [] = a := by
  cases q <;> rfl

theorem topologicalOrder_chain {W : Type} (alg : WeightAlgebra W) (w : W) :
    topologicalOrder (chain alg w) = some [0, 1] := rfl

theorem chain_loop {W : Type} (alg : WeightAlgebra W) (w : W) (cfg : Config) (q : Queue W)
    (f : Nat)
    (hzero : alg.Plus alg.Zero (alg.Times alg.One w) = alg.Times alg.One w)
    (hw : alg.Member w = true) (hc : alg.Member (alg.Times alg.One w) = true)
    (hne : alg.ApproxEqual (alg.Times alg.One w) alg.Zero cfg.delta = false) :
    ∃ o, relaxLoop alg (chain alg w) cfg q (f + 3) (initState alg 0) = some o ∧
      o.result.distances = some [alg.One, alg.Times alg.One w] := by
  have hcap0 : capExceeded cfg.state_limit 0 = false := by
    unfold capExceeded; cases cfg.state_limit <;> simp
  simp [relaxLoop, initState, hcap0, select_single, chain, relaxArcs, relaxArc, upd, hzero, hw,
    hc, hne, tabulate, List.range, List.range.loop, Result.distances]
  split <;> simp [Result.distances]

/-- C6, as amended: on the two-state chain `0 --w--> 1` with start state 0, for
every algebra in which Zero is neutral for Plus on `Times(One, w)`, every
weight `w` such that `w` and `Times(One, w)` pass the validity test and
`Times(One, w)` is not approximately equal to Zero within `delta`, and every
discipline (ShortestFirst only with an algebra that has a natural order),
forward shortest distance yields `distance[0] = One` and
`distance[1] = Times(One, w)`. -/
theorem chain_shortest_distance {W : Type} (alg : WeightAlgebra W) (w : W) (cfg : Config)
    (fuel : Nat) (hfuel : 3 ≤ fuel)
    (hzero : alg.Plus alg.Zero (alg.Times alg.One w) = alg.Times alg.One w)
    (hw : alg.Member w = true) (hc : alg.Member (alg.Times alg.One w) = true)
    (hne : alg.ApproxEqual (alg.Times alg.One w) alg.Zero cfg.delta = false)
    (hq : cfg.discipline = .ShortestFirst → alg.NaturalLess.isSome = true) :
    ∃ o, compute fuel alg (chain alg w) .Forward cfg = some o ∧
      o.result.distances = some [alg.One, alg.Times alg.One w] := by
  obtain ⟨f, rfl⟩ : ∃ f, fuel = f + 3 := ⟨fuel - 3, by omega⟩
  have hstart : (chain alg w).Start = some 0 := rfl
  have hn : (chain alg w).numStates = 2 := rfl
  have key : ∀ q : Queue W, resolve alg (chain alg w) cfg.discipline = .ok q →
      ∃ o, run alg (chain alg w) cfg (f + 3) = some o ∧
        o.result.distances = some [alg.One, alg.Times alg.One w] := by
    intro q hres
    simp only [run, hres, hstart, hn]
    exact chain_loop alg w cfg q f hzero hw hc hne
  unfold compute
  cases hd : cfg.discipline with
  | Fifo => simpa using key .fifo (by rw [hd]; rfl)
  | Lifo => simpa using key .lifo (by rw [hd]; rfl)
  | StateOrder => simpa using key .state (by rw [hd]; rfl)
  | TopologicalOrder =>
    simpa using key (.top [0, 1]) (by rw [hd]; simp [resolve, topologicalOrder_chain])
  | ShortestFirst =>
    have hs := hq hd
    cases hl : alg.NaturalLess with
    | none => simp [hl] at hs
    | some less => simpa [hl] using key (.shortest less) (by rw [hd]; simp [resolve, hl])
  | Auto =>
    cases hl : alg.NaturalLess with
    | none =>
      simpa using key (.top [0, 1]) (by rw [hd]; simp [resolve, hl, topologicalOrder_chain])
    | some less => simpa using key (.shortest less) (by rw [hd]; simp [resolve, hl])

theorem chain_shortest_distance_witness :
    ∃ o, compute 3 tropical (chain tropical (some 5)) .Forward ⟨1 / 1024, none, .ShortestFirst⟩ =
        some o ∧
      o.result.distances = some [tropical.One, tropical.Times tropical.One (some 5)] :=
  chain_shortest_distance tropical (some 5) ⟨1 / 1024, none, .ShortestFirst⟩ 3 (by decide)
    (by decide!) (by decide!) (by decide!) (by decide!) (by intro _; decide!)

/-- C6, as stated, fails: in the probability algebra with tolerance 1/1024 the
weight 1/2048 leaves `distance[1]` at Zero, ShortestFirst is rejected for want
of a natural order, and the weight -1 is rejected as invalid. -/
theorem chain_claim_fails :
    distanceAt (compute 9 probability (chain probability (1 / 2048)) .Forward
      ⟨1 / 1024, none, .Fifo⟩) 1 = some 0 ∧
    probability.Times probability.One (1 / 2048) ≠ 0 ∧
    compute 9 probability (chain probability (1 / 2)) .Forward
      ⟨1 / 1024, none, .ShortestFirst⟩ = some ⟨.Error .ConfigurationError, 0⟩ ∧
    compute 9 probability (chain probability (-1)) .Forward
      ⟨1 / 1024, none, .Fifo⟩ = some ⟨.Error .InvalidWeight, 1⟩ := by
  decide!

theorem pickBest_mem (better : Nat → Nat → Bool) (a : Nat) (rest : List Nat) :
    pickBest better a rest ∈ a :: rest := by
  unfold pickBest
  induction rest generalizing a with
  | nil => simp
  | cons x xs ih =>
    simp only [List.foldl_cons]
    have h := ih (if better x a = true then x else a)
    rcases List.mem_cons.1 h with h1 | h1
    · rw [h1]
      split <;> simp
    · exact List.mem_cons_of_mem _ (List.mem_cons_of_mem _ h1)

theorem select_mem {W : Type} (q : Queue W) (d : Nat → W) (a : Nat) (rest : List Nat) :
    select q d a rest ∈ a :: rest := by
  cases q with
  | fifo => simp [select]
  | lifo => exact List.getLast_mem _
  | shortest less => exact pickBest_mem _ a rest
  | state => exact pickBest_mem _ a rest
  | top order => exact pickBest_mem _ a rest

theorem tabulate_getElem? {W : Type} (n : Nat) (f : Nat → W) (t : Nat) (ht : t < n) :
    (tabulate n f)[t]? = some (f t) := by
  simp [tabulate, List.getElem?_range ht]

/-- What one arc leaves alone: the bookkeeping of the other states, the dequeue
count, and the active set up to the arc's destination. -/
theorem relaxArc_frame {W : Type} (alg : WeightAlgebra W) (delta : ℚ) (n : Nat) (carried : W)
    (st st1 : EngineState W) (a : W × Nat) (h : relaxArc alg delta n carried st a = .ok st1) :
    (∀ t, t ≠ a.2 → st1.distance t = st.distance t) ∧
    (∀ x ∈ st1.active, x ∈ st.active ∨ x = a.2) ∧ st1.dequeued = st.dequeued := by
  unfold relaxArc at h
  simp only at h
  split at h
  · cases h
  · split at h
    · cases h
    · split at h
      · cases h
      · split at h
        · cases h
          exact ⟨fun _ _ => rfl, fun x hx => Or.inl hx, rfl⟩
        · cases h
          refine ⟨fun t ht => by simp [upd, ht], fun x hx => ?_, rfl⟩
          simp only at hx
          split at hx
          · exact Or.inl hx
          · rcases List.mem_append.1 hx with h1 | h1
            · exact Or.inl h1
            · exact Or.inr (by simpa using h1)

theorem relaxArcs_frame {W : Type} (alg : WeightAlgebra W) (delta : ℚ) (n : Nat) (carried : W)
    (l : List (W × Nat)) : ∀ (st st1 : EngineState W),
    relaxArcs alg delta n carried st l = .ok st1 →
    (∀ t, (∀ a ∈ l, a.2 ≠ t) → st1.distance t = st.distance t) ∧
    (∀ x ∈ st1.active, x ∈ st.active ∨ ∃ a ∈ l, a.2 = x) ∧ st1.dequeued = st.dequeued := by
  induction l with
  | nil =>
    intro st st1 h
    simp only [relaxArcs] at h
    cases h
    exact ⟨fun _ _ => rfl, fun x hx => Or.inl hx, rfl⟩
  | cons a rest ih =>
    intro st st1 h
    simp only [relaxArcs] at h
    cases hstep : relaxArc alg delta n carried st a with
    | error o => simp [hstep] at h
    | ok st2 =>
      rw [hstep] at h
      obtain ⟨hd, ha, hq⟩ := relaxArc_frame alg delta n carried st st2 a hstep
      obtain ⟨hd1, ha1, hq1⟩ := ih st2 st1 h
      refine ⟨fun t ht => ?_, fun x hx => ?_, by rw [hq1, hq]⟩
      · rw [hd1 t (fun b hb => ht b (List.mem_cons_of_mem _ hb)),
          hd t (fun e => ht a (List.mem_cons_self _ _) e.symm)]
      · rcases ha1 x hx with h1 | ⟨b, hb, hbx⟩
        · rcases ha x h1 with h2 | h2
          · exact Or.inl h2
          · exact Or.inr ⟨a, List.mem_cons_self _ _, h2.symm⟩
        · exact Or.inr ⟨b, List.mem_cons_of_mem _ hb, hbx⟩

section Relaxation

variable {W : Type} {alg : WeightAlgebra W} {A : Automaton W}

theorem absorb_mono (hl : Lawful alg) {d y : W} (z : W) (h : alg.Plus d y = d) :
    alg.Plus (alg.Plus d z) y = alg.Plus d z := by
  rw [hl.plus_assoc, hl.plus_comm z y, ← hl.plus_assoc, h]

theorem absorb_self (hl : Lawful alg) (hi : Idempotent alg) (d z : W) :
    alg.Plus (alg.Plus d z) z = alg.Plus d z := by
  rw [hl.plus_assoc, hi z]

theorem absorb_plus (hl : Lawful alg) {d x y : W} (hx : alg.Plus d x = d)
    (hy : alg.Plus d y = d) : alg.Plus d (alg.Plus x y) = d := by
  rw [← hl.plus_assoc, hx, hy]

theorem zero_plus (hl : Lawful alg) (a : W) : alg.Plus alg.Zero a = a := by
  rw [hl.plus_comm, hl.plus_zero]

theorem Accum.member (hl : Lawful alg) (hv : ValidWeights alg A) {t : Nat} {x : W}
    (h : Accum alg A t x) : alg.Member x = true := by
  induction h with
  | zero t => exact hl.member_zero
  | one s0 h => exact hl.member_one
  | arc s x a hs ha _ ih => exact hl.member_times _ _ ih (hv s hs a ha)
  | plus t x y _ _ ihx ihy => exact hl.member_plus _ _ ihx ihy

/-- A closed mapping absorbs every weight that can be accumulated. -/
theorem Closed.absorbs (hl : Lawful alg) {d : Nat → W} (hc : Closed alg A d) {t : Nat} {x : W}
    (h : Accum alg A t x) : alg.Plus (d t) x = d t := by
  induction h with
  | zero t => exact hl.plus_zero _
  | one s0 h => exact hc.1 s0 h
  | arc s x a hs ha _ ih =>
    have h1 := hc.2 s hs a ha
    calc alg.Plus (d a.2) (alg.Times x a.1)
        = alg.Plus (alg.Plus (d a.2) (alg.Times (d s) a.1)) (alg.Times x a.1) := by rw [h1]
      _ = alg.Plus (d a.2) (alg.Times (alg.Plus (d s) x) a.1) := by
          rw [hl.plus_assoc, hl.right_distrib]
      _ = d a.2 := by rw [ih, h1]
  | plus t x y _ _ ihx ihy => exact absorb_plus hl ihx ihy

/-- Two closed mappings of accumulated weights are equal. -/
theorem Closed.unique (hl : Lawful alg) {d1 d2 : Nat → W} (h1 : Closed alg A d1)
    (h2 : Closed alg A d2) (a1 : ∀ t, Accum alg A t (d1 t)) (a2 : ∀ t, Accum alg A t (d2 t)) :
    ∀ t, d1 t = d2 t := by
  intro t
  have e1 := h1.absorbs hl (a2 t)
  have e2 := h2.absorbs hl (a1 t)
  rw [← e1, hl.plus_comm, e2]

end Relaxation
section Invariant

variable {W : Type} {alg : WeightAlgebra W} {A : Automaton W}

/-- Dequeuing the active state `s` and resetting its residual starts the
relaxation of its arcs. -/
theorem LoopInv.dequeue (hl : Lawful alg) {st : EngineState W} (h : LoopInv alg A st)
    {s : Nat} (hs : s ∈ st.active) :
    ArcInv alg A s (st.residual s) (A.Arcs s)
      { distance := st.distance
        residual := upd st.residual s alg.Zero
        active := st.active.erase s
        dequeued := st.dequeued + 1
        arcReads := st.arcReads } := by
  obtain ⟨p, hp1, hp2⟩ := h.ghost
  refine
    { acc_d := h.acc_d
      acc_r := fun t => ?_
      start := h.start
      nodup := h.nodup.erase s
      lt := fun u hu => h.lt u (List.mem_of_mem_erase hu)
      idle := fun u hu => ?_
      hs := h.lt s hs
      acc_c := h.acc_r s
      ghost := ⟨upd p s (st.distance s), fun u => ?_, fun u hu hne a ha => ?_, fun a ha => ?_,
        p s, ?_, fun a ha => hp2 s (h.lt s hs) a ha⟩ }
  · simp only [upd]
    split
    · exact Accum.zero t
    · exact h.acc_r t
  · simp only [upd]
    split
    · rfl
    · next hne =>
      exact h.idle u (fun hmem => hu ((List.mem_erase_of_ne hne).2 hmem))
  · simp only [upd]
    split
    · next e => subst e; simp [hl.plus_zero]
    · exact hp1 u
  · simp only [upd, if_neg hne]
    exact hp2 u hu a ha
  · exact Or.inl ha
  · simp only [upd, if_true]
    exact hp1 s

/-- Once no arc is ahead, the loop invariant holds again. -/
theorem ArcInv.finish {st : EngineState W} {s : Nat} {c : W} (h : ArcInv alg A s c [] st) :
    LoopInv alg A st := by
  obtain ⟨p, hp1, hp2, hp3, -⟩ := h.ghost
  refine
    { acc_d := h.acc_d
      acc_r := h.acc_r
      start := h.start
      nodup := h.nodup
      lt := h.lt
      idle := h.idle
      ghost := ⟨p, hp1, fun u hu a ha => ?_⟩ }
  by_cases hus : u = s
  · subst hus
    rcases hp3 a ha with h1 | h1
    · simp at h1
    · exact h1
  · exact hp2 u hu hus a ha

end Invariant
section ArcStep

variable {W : Type} {alg : WeightAlgebra W} {A : Automaton W}

/-- Relaxing the next arc of the dequeued state succeeds and keeps the arc
invariant, in a lawful idempotent algebra whose accumulated weights are
separated at the tolerance. -/
theorem ArcInv.step (hl : Lawful alg) (hi : Idempotent alg) {delta : ℚ}
    (hsep : Separated alg A delta) (hwf : WellFormed A) (hv : ValidWeights alg A)
    {s : Nat} {c : W} {a : W × Nat} {rest : List (W × Nat)} {st : EngineState W}
    (h : ArcInv alg A s c (a :: rest) st) (ha : a ∈ A.Arcs s) :
    ∃ st1, relaxArc alg delta A.numStates c st a = .ok st1 ∧ ArcInv alg A s c rest st1 := by
  obtain ⟨p, hp1, hp2, hp3, pold, hp4, hp5⟩ := h.ghost
  have hlt : a.2 < A.numStates := hwf.2 s h.hs a ha
  have hacc_x : Accum alg A a.2 (alg.Times c a.1) := Accum.arc s c a h.hs ha h.acc_c
  have hacc_cand : Accum alg A a.2 (alg.Plus (st.distance a.2) (alg.Times c a.1)) :=
    Accum.plus _ _ _ (h.acc_d a.2) hacc_x
  have hm1 : alg.Member a.1 = true := hv s h.hs a ha
  have hm2 : alg.Member (alg.Times c a.1) = true := hacc_x.member hl hv
  have hm3 : alg.Member (alg.Plus (st.distance a.2) (alg.Times c a.1)) = true :=
    hacc_cand.member hl hv
  -- the entry of the destination after the step absorbs the whole of `p s ⊗ w`
  have hnew : ∀ d1 : W, d1 = alg.Plus (st.distance a.2) (alg.Times c a.1) →
      alg.Plus d1 (alg.Times (p s) a.1) = d1 := by
    intro d1 hd1
    rw [hp4, hl.right_distrib, hd1]
    exact absorb_plus hl (absorb_mono hl _ (hp5 a ha)) (absorb_self hl hi _ _)
  unfold relaxArc
  simp only [Nat.not_le.2 hlt, if_false, hm1, hm2, hm3, Bool.not_true, Bool.or_self,
    Bool.false_eq_true]
  by_cases hap : alg.ApproxEqual (alg.Plus (st.distance a.2) (alg.Times c a.1))
      (st.distance a.2) delta = true
  · have heq : alg.Plus (st.distance a.2) (alg.Times c a.1) = st.distance a.2 :=
      hsep a.2 _ _ hacc_cand (h.acc_d a.2) hap
    simp only [hap, if_true]
    refine ⟨_, rfl,
      { acc_d := h.acc_d
        acc_r := h.acc_r
        start := h.start
        nodup := h.nodup
        lt := h.lt
        idle := h.idle
        hs := h.hs
        acc_c := h.acc_c
        ghost := ⟨p, hp1, hp2, fun b hb => ?_, pold, hp4, hp5⟩ }⟩
    rcases hp3 b hb with h1 | h1
    · rcases List.mem_cons.1 h1 with h2 | h2
      · subst h2
        exact Or.inr (hnew _ heq.symm)
      · exact Or.inl h2
    · exact Or.inr h1
  · simp only [hap, if_false]
    have hmono : ∀ (v : Nat) (y : W), alg.Plus (st.distance v) y = st.distance v →
        alg.Plus (upd st.distance a.2 (alg.Plus (st.distance a.2) (alg.Times c a.1)) v) y =
          upd st.distance a.2 (alg.Plus (st.distance a.2) (alg.Times c a.1)) v := by
      intro v y hy
      simp only [upd]
      split
      · next e => subst e; exact absorb_mono hl _ hy
      · exact hy
    refine ⟨_, rfl,
      { acc_d := fun t => ?_
        acc_r := fun t => ?_
        start := fun s0 h0 => hmono s0 _ (h.start s0 h0)
        nodup := ?_
        lt := fun u hu => ?_
        idle := fun u hu => ?_
        hs := h.hs
        acc_c := h.acc_c
        ghost := ⟨p, fun u => ?_, fun u hu hne b hb => hmono _ _ (hp2 u hu hne b hb),
          fun b hb => ?_, pold, hp4, fun b hb => hmono _ _ (hp5 b hb)⟩ }⟩
    · simp only [upd]
      split
      · next e => subst e; exact hacc_cand
      · exact h.acc_d t
    · simp only [upd]
      split
      · next e => subst e; exact Accum.plus _ _ _ (h.acc_r a.2) hacc_x
      · exact h.acc_r t
    · simp only
      split
      · exact h.nodup
      · next hnot =>
        exact List.Nodup.append h.nodup (List.nodup_singleton _)
          (by
            intro x hx hx1
            have : x = a.2 := by simpa using hx1
            exact hnot (this ▸ hx))
    · simp only at hu
      split at hu
      · exact h.lt u hu
      · rcases List.mem_append.1 hu with h1 | h1
        · exact h.lt u h1
        · have : u = a.2 := by simpa using h1
          rw [this]; exact hlt
    · simp only at hu
      have hu1 : u ∉ st.active ∧ u ≠ a.2 := by
        split at hu
        · next hmem => exact ⟨hu, fun e => hu (e ▸ hmem)⟩
        · exact ⟨fun hm => hu (List.mem_append_left _ hm),
            fun e => hu (List.mem_append_right _ (by simp [e]))⟩
      simp only [upd, if_neg hu1.2]
      exact h.idle u hu1.1
    · simp only [upd]
      split
      · next e => subst e; rw [hp1 a.2, hl.plus_assoc]
      · exact hp1 u
    · rcases hp3 b hb with h1 | h1
      · rcases List.mem_cons.1 h1 with h2 | h2
        · subst h2
          refine Or.inr (hnew _ ?_)
          simp [upd]
        · exact Or.inl h2
      · exact Or.inr (hmono _ _ h1)

/-- Relaxing all the arcs ahead succeeds and leaves none ahead. -/
theorem ArcInv.steps (hl : Lawful alg) (hi : Idempotent alg) {delta : ℚ}
    (hsep : Separated alg A delta) (hwf : WellFormed A) (hv : ValidWeights alg A)
    {s : Nat} {c : W} (l : List (W × Nat)) : ∀ (st : EngineState W),
    ArcInv alg A s c l st → (∀ a ∈ l, a ∈ A.Arcs s) →
    ∃ st1, relaxArcs alg delta A.numStates c st l = .ok st1 ∧ ArcInv alg A s c [] st1 := by
  induction l with
  | nil => intro st h _; exact ⟨st, rfl, h⟩
  | cons a rest ih =>
    intro st h hsub
    obtain ⟨st1, h1, hinv1⟩ := h.step hl hi hsep hwf hv (hsub a (List.mem_cons_self _ _))
    obtain ⟨st2, h2, hinv2⟩ := ih st1 hinv1 (fun b hb => hsub b (List.mem_cons_of_mem _ hb))
    exact ⟨st2, by simp only [relaxArcs, h1]; exact h2, hinv2⟩

end ArcStep
theorem sum_lower_ranks_lt (n : Nat) (rank : Nat → Nat) (s : Nat) :
    Finset.sum (Finset.range n) (fun t => if rank t < rank s then (n + 1) ^ rank t else 0) <
      (n + 1) ^ rank s := by
  cases hk : rank s with
  | zero => simp
  | succ k =>
    have hle : ∀ t ∈ Finset.range n,
        (if rank t < k + 1 then (n + 1) ^ rank t else 0) ≤ (n + 1) ^ k := by
      intro t _
      split
      · exact Nat.pow_le_pow_right (Nat.succ_pos n) (by omega)
      · exact Nat.zero_le _
    have h1 := Finset.sum_le_card_nsmul (Finset.range n) _ _ hle
    simp only [Finset.card_range, smul_eq_mul] at h1
    have h2 : n * (n + 1) ^ k < (n + 1) ^ (k + 1) := by
      rw [Nat.pow_succ, Nat.mul_comm ((n + 1) ^ k) (n + 1)]
      exact Nat.mul_lt_mul_of_pos_right (Nat.lt_succ_self n) (Nat.pow_pos (Nat.succ_pos n))
    omega

/-- Replacing an active state by states of lower rank lowers the potential. -/
theorem potential_decrease (n : Nat) (rank : Nat → Nat) (l l1 : List Nat) (s : Nat)
    (hs : s < n) (hsl : s ∈ l)
    (h : ∀ x ∈ l1, (x ∈ l ∧ x ≠ s) ∨ rank x < rank s) :
    potential n rank l1 < potential n rank l := by
  unfold potential
  have ha : ∀ t ∈ Finset.range n, (if t ∈ l1 then (n + 1) ^ rank t else 0) ≤
      (if t ∈ l ∧ t ≠ s then (n + 1) ^ rank t else 0) +
        (if rank t < rank s then (n + 1) ^ rank t else 0) := by
    intro t _
    by_cases ht : t ∈ l1
    · rcases h t ht with h1 | h1
      · simp [ht, h1]
      · simp [ht, h1]
    · simp [ht]
  have hb : ∀ t ∈ Finset.range n, (if t ∈ l then (n + 1) ^ rank t else 0) =
      (if t ∈ l ∧ t ≠ s then (n + 1) ^ rank t else 0) +
        (if t = s then (n + 1) ^ rank s else 0) := by
    intro t _
    by_cases hts : t = s
    · subst hts; simp [hsl]
    · simp [hts]
  have hc : Finset.sum (Finset.range n) (fun t => if t = s then (n + 1) ^ rank s else 0) =
      (n + 1) ^ rank s := by
    rw [Finset.sum_ite_eq' (Finset.range n) s (fun _ => (n + 1) ^ rank s)]
    simp [hs]
  have h1 := Finset.sum_le_sum ha
  rw [Finset.sum_add_distrib] at h1
  rw [Finset.sum_congr rfl hb, Finset.sum_add_distrib, hc]
  have h2 := sum_lower_ranks_lt n rank s
  omega
section Convergence

variable {W : Type} {alg : WeightAlgebra W} {A : Automaton W}

/-- With no state active, the distances are closed. -/
theorem LoopInv.closed (hl : Lawful alg) {st : EngineState W} (h : LoopInv alg A st)
    (hact : st.active = []) : Closed alg A st.distance := by
  obtain ⟨p, hp1, hp2⟩ := h.ghost
  have hp : ∀ u, p u = st.distance u := by
    intro u
    rw [hp1 u, h.idle u (by simp [hact]), hl.plus_zero]
  refine ⟨h.start, fun s hs a ha => ?_⟩
  rw [← hp s]
  exact hp2 s hs a ha

/-- The state set up by step 2 satisfies the loop invariant. -/
theorem LoopInv.init (hl : Lawful alg) (hi : Idempotent alg) {s0 : Nat}
    (hstart : A.Start = some s0) (hlt : s0 < A.numStates) :
    LoopInv alg A (initState alg s0) := by
  have hacc : ∀ t, Accum alg A t (upd (fun _ => alg.Zero) s0 alg.One t) := by
    intro t
    simp only [upd]
    split
    · next e => subst e; exact Accum.one t hstart
    · exact Accum.zero t
  refine
    { acc_d := hacc
      acc_r := hacc
      start := fun s1 h1 => ?_
      nodup := List.nodup_singleton s0
      lt := fun s hs => ?_
      idle := fun s hs => ?_
      ghost := ⟨fun _ => alg.Zero, fun u => (zero_plus hl _).symm, fun u _ a _ => ?_⟩ }
  · have e : s1 = s0 := by rw [hstart] at h1; exact (Option.some.inj h1).symm
    subst e
    simp [initState, upd, hi alg.One]
  · have e : s = s0 := by simpa [initState] using hs
    rw [e]; exact hlt
  · have e : s ≠ s0 := by simpa [initState] using hs
    simp [initState, upd, e]
  · rw [hl.zero_times, hl.plus_zero]

/-- On a ranked automaton the relaxation loop without a state limit ends with
the complete result as soon as the fuel exceeds the potential of the active
set, and the distances it returns are closed accumulated weights. -/
theorem relaxLoop_converges (hl : Lawful alg) (hi : Idempotent alg) (cfg : Config)
    (hsep : Separated alg A cfg.delta) (hlim : cfg.state_limit = none)
    (hwf : WellFormed A) (hv : ValidWeights alg A) (rank : Nat → Nat)
    (hrank : ∀ s t, HasArc A s t → rank t < rank s) (q : Queue W) :
    ∀ (fuel : Nat) (st : EngineState W), LoopInv alg A st →
      potential A.numStates rank st.active < fuel →
      ∃ d k, relaxLoop alg A cfg q fuel st = some ⟨.Ok (tabulate A.numStates d), k⟩ ∧
        Closed alg A d ∧ ∀ t, Accum alg A t (d t) := by
  intro fuel
  induction fuel with
  | zero => intro st _ h; omega
  | succ fuel ih =>
    intro st hinv hpot
    rw [relaxLoop]
    split
    · next hact => exact ⟨st.distance, st.arcReads, rfl, hinv.closed hl hact, hinv.acc_d⟩
    · next a rest hact =>
      have hcap : capExceeded cfg.state_limit st.dequeued = false := by
        simp [capExceeded, hlim]
      simp only [hcap, Bool.false_eq_true, if_false]
      have hsel : select q st.distance a rest ∈ st.active := by
        rw [hact]; exact select_mem q _ a rest
      have hmid := hinv.dequeue hl hsel
      rw [hact] at hmid
      obtain ⟨st2, h2, hinv2⟩ := hmid.steps hl hi hsep hwf hv (A.Arcs _) _ (fun _ hb => hb)
      rw [h2]
      obtain ⟨-, hact2, -⟩ := relaxArcs_frame _ _ _ _ _ _ _ h2
      have hdec : potential A.numStates rank st2.active <
          potential A.numStates rank st.active := by
        refine potential_decrease _ rank _ _ (select q st.distance a rest)
          (hinv.lt _ hsel) hsel (fun x hx => ?_)
        rcases hact2 x hx with h3 | ⟨b, hb, hbx⟩
        · simp only at h3
          rw [← hact] at h3
          exact Or.inl ⟨List.mem_of_mem_erase h3, fun e => by
            rw [e] at h3
            exact (List.Nodup.not_mem_erase hinv.nodup) h3⟩
        · exact Or.inr (hrank _ _ ⟨hinv.lt _ hsel, b, hb, hbx⟩)
      exact ih st2 hinv2.finish (by omega)

end Convergence
section Topological

variable {W : Type} {A : Automaton W}

/-- An acyclic well-formed automaton has a rank that decreases along every
arc: the number of states reachable from a state. -/
theorem Acyclic.exists_rank (hac : Acyclic A) (hwf : WellFormed A) :
    ∃ rank : Nat → Nat, ∀ s t, HasArc A s t → rank t < rank s := by
  classical
  refine ⟨fun s => ((Finset.range A.numStates).filter
    (fun t => Relation.TransGen (HasArc A) s t)).card, ?_⟩
  intro s t hst
  have htn : t < A.numStates := by
    obtain ⟨hs, a, ha, e⟩ := hst
    rw [← e]; exact hwf.2 s hs a ha
  apply Finset.card_lt_card
  rw [Finset.ssubset_iff_of_subset]
  · refine ⟨t, ?_, ?_⟩
    · simp only [Finset.mem_filter, Finset.mem_range]
      exact ⟨htn, Relation.TransGen.single hst⟩
    · simp only [Finset.mem_filter, Finset.mem_range, not_and]
      exact fun _ => hac t
  · intro x hx
    simp only [Finset.mem_filter, Finset.mem_range] at hx ⊢
    exact ⟨hx.1, Relation.TransGen.head hst hx.2⟩

theorem exists_min_rank (rank : Nat → Nat) (l : List Nat) (hl : l ≠ []) :
    ∃ m ∈ l, ∀ x ∈ l, rank m ≤ rank x := by
  induction l with
  | nil => exact absurd rfl hl
  | cons a rest ih =>
    by_cases hr : rest = []
    · subst hr
      exact ⟨a, List.mem_cons_self _ _, fun x hx => by simp at hx; rw [hx]⟩
    · obtain ⟨m, hm, hmin⟩ := ih hr
      by_cases hcmp : rank a ≤ rank m
      · refine ⟨a, List.mem_cons_self _ _, fun x hx => ?_⟩
        rcases List.mem_cons.1 hx with h1 | h1
        · rw [h1]
        · exact Nat.le_trans hcmp (hmin x h1)
      · refine ⟨m, List.mem_cons_of_mem _ hm, fun x hx => ?_⟩
        rcases List.mem_cons.1 hx with h1 | h1
        · rw [h1]; omega
        · exact hmin x h1

/-- On a ranked automaton the topological sort succeeds. -/
theorem topoFrom_some (rank : Nat → Nat) (hrank : ∀ s t, HasArc A s t → rank t < rank s) :
    ∀ (fuel : Nat) (remaining acc : List Nat), remaining.length ≤ fuel →
      (∀ s ∈ remaining, s < A.numStates) → ∃ o, topoFrom A fuel remaining acc = some o := by
  intro fuel
  induction fuel with
  | zero =>
    intro remaining acc hlen _
    have : remaining = [] := List.length_eq_zero.1 (by omega)
    subst this
    exact ⟨acc, rfl⟩
  | succ fuel ih =>
    intro remaining acc hlen hlt
    rw [topoFrom]
    split
    · next hnone =>
      by_cases hr : remaining = []
      · subst hr; exact ⟨acc, rfl⟩
      · exfalso
        obtain ⟨m, hm, hmin⟩ := exists_min_rank rank remaining hr
        have hp := List.find?_eq_none.1 hnone m hm
        apply hp
        rw [List.all_eq_true]
        intro a ha
        have hlow : rank a.2 < rank m := hrank m a.2 ⟨hlt m hm, a, ha, rfl⟩
        have hnot : a.2 ∉ remaining := fun hmem => by
          have := hmin a.2 hmem
          omega
        simpa using hnot
    · next s hsome =>
      have hs : s ∈ remaining := List.mem_of_find?_eq_some hsome
      refine ih _ _ ?_ (fun x hx => hlt x (List.mem_of_mem_erase hx))
      rw [List.length_erase_of_mem hs]
      omega

theorem topologicalOrder_some (hac : Acyclic A) (hwf : WellFormed A) :
    ∃ o, topologicalOrder A = some o := by
  obtain ⟨rank, hrank⟩ := hac.exists_rank hwf
  exact topoFrom_some rank hrank _ _ _ (by simp) (fun s hs => by simpa using hs)

end Topological
section Agreement

variable {W : Type} {alg : WeightAlgebra W} {A : Automaton W}

theorem run_eq_relaxLoop (cfg : Config) {q : Queue W} {s0 : Nat} (fuel : Nat)
    (hres : resolve alg A cfg.discipline = .ok q) (hstart : A.Start = some s0)
    (hlt : s0 < A.numStates) :
    run alg A cfg fuel = relaxLoop alg A cfg q fuel (initState alg s0) := by
  simp [run, hres, hstart, Nat.not_le.2 hlt]

theorem resolve_five (hnat : alg.NaturalLess.isSome = true) (hac : Acyclic A)
    (hwf : WellFormed A) (disc : Discipline) (hd : disc ∈ fiveDisciplines) :
    ∃ q, resolve alg A disc = .ok q := by
  obtain ⟨o, ho⟩ := topologicalOrder_some hac hwf
  obtain ⟨less, hless⟩ := Option.isSome_iff_exists.1 hnat
  simp only [fiveDisciplines, List.mem_cons, List.mem_singleton, List.not_mem_nil, or_false]
    at hd
  rcases hd with h | h | h | h | h <;> subst h
  · exact ⟨_, rfl⟩
  · exact ⟨_, rfl⟩
  · exact ⟨.shortest less, by simp [resolve, hless]⟩
  · exact ⟨_, rfl⟩
  · exact ⟨.top o, by simp [resolve, ho]⟩

/-- On the view it operates on, the engine gives one and the same complete
distance vector under each of the five disciplines. -/
theorem run_agree (hl : Lawful alg) (hi : Idempotent alg) (delta : ℚ)
    (hsep : Separated alg A delta) (hnat : alg.NaturalLess.isSome = true) (hac : Acyclic A)
    (hwf : WellFormed A) (hv : ValidWeights alg A) :
    ∃ dist : List W, ∀ disc ∈ fiveDisciplines, ∃ fuel0, ∀ fuel, fuel0 ≤ fuel →
      ∃ k, run alg A ⟨delta, none, disc⟩ fuel = some ⟨.Ok dist, k⟩ := by
  obtain ⟨rank, hrank⟩ := hac.exists_rank hwf
  obtain ⟨⟨s0, hstart, hlt⟩, -⟩ := id hwf
  have hinit : LoopInv alg A (initState alg s0) := LoopInv.init hl hi hstart hlt
  have hloop : ∀ (disc : Discipline) (q : Queue W) (fuel : Nat),
      potential A.numStates rank (initState alg s0).active < fuel →
      ∃ d k, relaxLoop alg A ⟨delta, none, disc⟩ q fuel (initState alg s0) =
          some ⟨.Ok (tabulate A.numStates d), k⟩ ∧
        Closed alg A d ∧ ∀ t, Accum alg A t (d t) :=
    fun disc q fuel hf =>
      relaxLoop_converges hl hi ⟨delta, none, disc⟩ hsep rfl hwf hv rank hrank q fuel _ hinit hf
  obtain ⟨d0, -, -, hc0, ha0⟩ :=
    hloop .Fifo .fifo (potential A.numStates rank (initState alg s0).active + 1)
      (Nat.lt_succ_self _)
  refine ⟨tabulate A.numStates d0, fun disc hdisc => ?_⟩
  obtain ⟨q, hq⟩ := resolve_five hnat hac hwf disc hdisc
  refine ⟨potential A.numStates rank (initState alg s0).active + 1, fun fuel hf => ?_⟩
  obtain ⟨d, k, hrun, hc, ha⟩ := hloop disc q fuel (by omega)
  have hd : tabulate A.numStates d = tabulate A.numStates d0 := by
    unfold tabulate
    exact List.map_congr_left (fun t _ => Closed.unique hl hc hc0 ha ha0 t)
  refine ⟨k, ?_⟩
  rw [run_eq_relaxLoop ⟨delta, none, disc⟩ fuel hq hstart hlt, hrun, hd]

end Agreement
section Reversal

variable {W : Type} {alg : WeightAlgebra W} {A : Automaton W}

theorem mem_reverse_arcs {t : Nat} {b : W × Nat} (hb : b ∈ (A.Reverse alg).Arcs t) :
    b.2 < A.numStates ∧
      ((t = A.numStates ∧ b.1 = A.Final b.2) ∨ ∃ a ∈ A.Arcs b.2, a.2 = t ∧ a.1 = b.1) := by
  simp only [Automaton.Reverse] at hb
  split at hb
  · next e =>
    obtain ⟨s, hs, rfl⟩ := List.mem_map.1 hb
    exact ⟨List.mem_range.1 hs, Or.inl ⟨e, rfl⟩⟩
  · obtain ⟨s, hs, hb1⟩ := List.mem_flatMap.1 hb
    obtain ⟨a, ha, hab⟩ := List.mem_filterMap.1 hb1
    split at hab
    · next e =>
      cases hab
      exact ⟨List.mem_range.1 hs, Or.inr ⟨a, ha, e, rfl⟩⟩
    · cases hab

theorem reverse_wellFormed (alg : WeightAlgebra W) (A : Automaton W) :
    WellFormed (A.Reverse alg) :=
  ⟨⟨A.numStates, rfl, Nat.lt_succ_self _⟩,
    fun _ _ _ hb => Nat.lt_succ_of_lt (mem_reverse_arcs hb).1⟩

theorem reverse_validWeights (hv : ValidWeights alg A) (hf : ValidFinals alg A) :
    ValidWeights alg (A.Reverse alg) := by
  intro t _ b hb
  obtain ⟨hlt, h | ⟨a, ha, -, e⟩⟩ := mem_reverse_arcs hb
  · rw [h.2]; exact hf _ hlt
  · rw [← e]; exact hv _ hlt a ha

theorem reverse_hasArc {x y : Nat} (h : HasArc (A.Reverse alg) x y) :
    y < A.numStates ∧ (x = A.numStates ∨ HasArc A y x) := by
  obtain ⟨-, b, hb, e⟩ := h
  obtain ⟨hlt, h1 | ⟨a, ha, hax, -⟩⟩ := mem_reverse_arcs hb
  · rw [← e]; exact ⟨hlt, Or.inl h1.1⟩
  · rw [← e]; exact ⟨hlt, Or.inr ⟨hlt, a, ha, hax⟩⟩

theorem reverse_transGen_target {x y : Nat}
    (h : Relation.TransGen (HasArc (A.Reverse alg)) x y) : y < A.numStates := by
  cases h with
  | single h1 => exact (reverse_hasArc h1).1
  | tail _ h1 => exact (reverse_hasArc h1).1

theorem reverse_transGen {x y : Nat} (h : Relation.TransGen (HasArc (A.Reverse alg)) x y)
    (hx : x ≠ A.numStates) : Relation.TransGen (HasArc A) y x := by
  induction h with
  | single h1 =>
    rcases (reverse_hasArc h1).2 with h2 | h2
    · exact absurd h2 hx
    · exact Relation.TransGen.single h2
  | tail h0 h1 ih =>
    rcases (reverse_hasArc h1).2 with h2 | h2
    · exact absurd h2 (Nat.ne_of_lt (reverse_transGen_target h0))
    · exact Relation.TransGen.head h2 ih

theorem reverse_acyclic (hac : Acyclic A) : Acyclic (A.Reverse alg) := by
  intro x h
  exact hac x (reverse_transGen h (Nat.ne_of_lt (reverse_transGen_target h)))

end Reversal

/-- An automaton with a rank that decreases along every arc is acyclic. -/
theorem acyclic_of_rank {W : Type} {A : Automaton W} (rank : Nat → Nat)
    (hrank : ∀ s t, HasArc A s t → rank t < rank s) : Acyclic A := by
  have h : ∀ s t, Relation.TransGen (HasArc A) s t → rank t < rank s := by
    intro s t hst
    induction hst with
    | single h1 => exact hrank _ _ h1
    | tail _ h1 ih => exact Nat.lt_trans (hrank _ _ h1) ih
  intro s hs
  exact Nat.lt_irrefl _ (h s s hs)
theorem tropicalExact_lawful : Lawful tropicalExact where
  plus_assoc := by
    intro a b c
    cases a <;> cases b <;> cases c <;> simp [tropicalExact, tropical, min_assoc]
  plus_comm := by
    intro a b
    cases a <;> cases b <;> simp [tropicalExact, tropical, min_comm]
  plus_zero := by
    intro a
    cases a <;> simp [tropicalExact, tropical]
  zero_times := by
    intro a
    cases a <;> simp [tropicalExact, tropical]
  right_distrib := by
    intro a b c
    cases a <;> cases b <;> cases c <;> simp [tropicalExact, tropical, min_add_add_right]
  member_zero := rfl
  member_one := rfl
  member_plus := fun _ _ _ _ => rfl
  member_times := fun _ _ _ _ => rfl

theorem tropicalExact_idempotent : Idempotent tropicalExact := by
  intro a
  cases a <;> simp [tropicalExact, tropical]

theorem tropical_idempotent : Idempotent tropical := by
  intro a
  cases a <;> simp [tropical]

theorem tropicalExact_exact (delta : ℚ) : ExactAt tropicalExact delta := by
  intro a b
  simp [tropicalExact]

theorem diamond_hasArc {s t : Nat} (h : HasArc diamond s t) : s < t ∧ t < 4 := by
  obtain ⟨hs, a, ha, e⟩ := h
  have hs4 : s < 4 := hs
  subst e
  interval_cases s <;> simp [diamond] at ha
  · rcases ha with h | h <;> subst h <;> simp
  · subst ha; simp
  · subst ha; simp

theorem diamond_acyclic : Acyclic diamond :=
  acyclic_of_rank (fun s => 4 - s) (fun s t h => by
    have := diamond_hasArc h
    simp only
    omega)

theorem tropical_lawful : Lawful tropical where
  plus_assoc := by
    intro a b c
    cases a <;> cases b <;> cases c <;> simp [tropical, min_assoc]
  plus_comm := by
    intro a b
    cases a <;> cases b <;> simp [tropical, min_comm]
  plus_zero := by
    intro a
    cases a <;> simp [tropical]
  zero_times := by
    intro a
    cases a <;> simp [tropical]
  right_distrib := by
    intro a b c
    cases a <;> cases b <;> cases c <;> simp [tropical, min_add_add_right]
  member_zero := rfl
  member_one := rfl
  member_plus := fun _ _ _ _ => rfl
  member_times := fun _ _ _ _ => rfl

/-- Exact comparison separates the accumulated weights of every automaton. -/
theorem ExactAt.separated {W : Type} {alg : WeightAlgebra W} {delta : ℚ}
    (h : ExactAt alg delta) (A : Automaton W) : Separated alg A delta :=
  fun _ a b _ _ hab => (h a b).1 hab

/-- On integer arc weights the tropical algebra accumulates integers only. -/
theorem tropical_accum_integer {A : Automaton (Option ℚ)} (hA : IntegerArcs A) {t : Nat}
    {x : Option ℚ} (h : Accum tropical A t x) : IntegerWeight x := by
  induction h with
  | zero t => exact Or.inl rfl
  | one s0 _ => exact Or.inr ⟨0, by simp [tropical]⟩
  | arc s x a hs ha _ ih =>
    rcases ih with hx | ⟨z, hz⟩
    · subst hx; exact Or.inl (by simp [tropical])
    · rcases hA s hs a ha with hw | ⟨w, hw⟩
      · rw [hz, hw]; exact Or.inl (by simp [tropical])
      · rw [hz, hw]; exact Or.inr ⟨z + w, by simp [tropical]⟩
  | plus t x y _ _ ihx ihy =>
    rcases ihx with hx | ⟨z, hz⟩
    · subst hx
      rcases ihy with hy | ⟨w, hw⟩
      · subst hy; exact Or.inl (by simp [tropical])
      · subst hw; exact Or.inr ⟨w, by simp [tropical]⟩
    · subst hz
      rcases ihy with hy | ⟨w, hw⟩
      · subst hy; exact Or.inr ⟨z, by simp [tropical]⟩
      · subst hw; exact Or.inr ⟨min z w, by simp [tropical, Int.cast_min]⟩

/-- On integer arc weights the tropical algebra with its tolerance-based
comparison separates the accumulated weights at every tolerance below 1. -/
theorem tropical_separated {A : Automaton (Option ℚ)} (hA : IntegerArcs A) (delta : ℚ)
    (hd : delta < 1) : Separated tropical A delta := by
  intro t a b ha hb hab
  rcases tropical_accum_integer hA ha with h1 | ⟨z, h1⟩ <;>
    rcases tropical_accum_integer hA hb with h2 | ⟨w, h2⟩ <;> subst h1 <;> subst h2
  · rfl
  · simp [tropical] at hab
  · simp [tropical] at hab
  · simp only [tropical, Bool.and_eq_true, decide_eq_true_eq] at hab
    have h3 : (z : ℚ) < (w : ℚ) + 1 := by linarith [hab.1]
    have h4 : (w : ℚ) < (z : ℚ) + 1 := by linarith [hab.2]
    have h5 : z < w + 1 := by exact_mod_cast h3
    have h6 : w < z + 1 := by exact_mod_cast h4
    have h7 : z = w := by omega
    rw [h7]

theorem intDiamond_hasArc {s t : Nat} (h : HasArc intDiamond s t) : s < t ∧ t < 4 := by
  obtain ⟨hs, a, ha, e⟩ := h
  have hs4 : s < 4 := hs
  subst e
  interval_cases s <;> simp [intDiamond] at ha
  · rcases ha with h | h <;> subst h <;> simp
  · subst ha; simp
  · subst ha; simp

theorem intDiamond_acyclic : Acyclic intDiamond :=
  acyclic_of_rank (fun s => 4 - s) (fun s t h => by
    have := intDiamond_hasArc h
    simp only
    omega)

theorem intDiamond_wellFormed : WellFormed intDiamond :=
  ⟨⟨0, rfl, by decide⟩, fun s hs a ha => (intDiamond_hasArc ⟨hs, a, ha, rfl⟩).2⟩

theorem intDiamond_integerArcs : IntegerArcs intDiamond := by
  intro s hs a ha
  have hs4 : s < 4 := hs
  interval_cases s <;> simp [intDiamond] at ha
  · rcases ha with h | h <;> subst h
    · exact Or.inr ⟨1, by simp⟩
    · exact Or.inr ⟨2, by simp⟩
  · subst ha; exact Or.inr ⟨10, by simp⟩
  · subst ha; exact Or.inr ⟨7, by simp⟩

/-- C10, as amended: for every acyclic automaton whose weights are valid
(well-formed for Forward, with valid final weights for Reverse), every
idempotent weight algebra that obeys the semiring laws, has a natural order and
in which no two different weights that can be accumulated at one state of the
view operated on are approximately equal within the configured delta, and no
state limit, the five disciplines Fifo, Lifo, ShortestFirst, StateOrder and
TopologicalOrder all end with the same complete distance vector, in either
direction. -/
theorem disciplines_agree {W : Type} (alg : WeightAlgebra W) (A : Automaton W) (delta : ℚ)
    (direction : Direction) (hl : Lawful alg) (hi : Idempotent alg)
    (hsep : Separated alg (operatedView alg A direction) delta)
    (hnat : alg.NaturalLess.isSome = true) (hac : Acyclic A)
    (hv : ValidWeights alg A) (hwf : direction = .Forward → WellFormed A)
    (hf : direction = .Reverse → ValidFinals alg A) :
    ∃ dist : List W, ∀ disc ∈ fiveDisciplines, ∃ fuel0, ∀ fuel, fuel0 ≤ fuel →
      ∃ k, compute fuel alg A direction ⟨delta, none, disc⟩ = some ⟨.Ok dist, k⟩ := by
  have hguard : ∀ disc : Discipline,
      ¬ ((Config.mk delta none disc).discipline = .ShortestFirst ∧
        alg.NaturalLess.isNone = true) := by
    intro disc h
    have h2 := h.2
    rw [Option.isNone_iff_eq_none] at h2
    rw [h2] at hnat
    cases hnat
  cases direction with
  | Forward =>
    have hsep1 : Separated alg A delta := hsep
    obtain ⟨dist, hd⟩ := run_agree hl hi delta hsep1 hnat hac (hwf rfl) hv
    refine ⟨dist, fun disc hdisc => ?_⟩
    obtain ⟨fuel0, h0⟩ := hd disc hdisc
    refine ⟨fuel0, fun fuel hfuel => ?_⟩
    obtain ⟨k, hk⟩ := h0 fuel hfuel
    exact ⟨k, by simp only [compute, if_neg (hguard disc)]; exact hk⟩
  | Reverse =>
    have hsep1 : Separated alg (A.Reverse alg) delta := hsep
    obtain ⟨dist, hd⟩ := run_agree hl hi delta hsep1 hnat (reverse_acyclic hac)
      (reverse_wellFormed alg A) (reverse_validWeights hv (hf rfl))
    refine ⟨dist.take A.numStates, fun disc hdisc => ?_⟩
    obtain ⟨fuel0, h0⟩ := hd disc hdisc
    refine ⟨fuel0, fun fuel hfuel => ?_⟩
    obtain ⟨k, hk⟩ := h0 fuel hfuel
    exact ⟨k, by simp only [compute, if_neg (hguard disc), hk, Option.map_some', remap]⟩

theorem disciplines_agree_witness :
    ∃ dist : List (Option ℚ), ∀ disc ∈ fiveDisciplines, ∃ fuel0, ∀ fuel, fuel0 ≤ fuel →
      ∃ k, compute fuel tropical intDiamond .Forward ⟨1 / 1024, none, disc⟩ =
        some ⟨.Ok dist, k⟩ :=
  disciplines_agree tropical intDiamond (1 / 1024) .Forward tropical_lawful
    tropical_idempotent (tropical_separated intDiamond_integerArcs _ (by norm_num)) rfl
    intDiamond_acyclic (fun _ _ _ _ => rfl) (fun _ => intDiamond_wellFormed)
    (fun h => by cases h)

/-- C10, as stated, fails: on the acyclic diamond, in the idempotent tropical
algebra with its natural order, Fifo and Lifo end with different distance
vectors at tolerance 1/1024; and with exact comparison under a state limit of
1 they return different partial vectors. -/
theorem disciplines_disagree :
    Idempotent tropical ∧ tropical.NaturalLess.isSome = true ∧ Acyclic diamond ∧
    compute 9 tropical diamond .Forward ⟨1 / 1024, none, .Fifo⟩ =
      some ⟨.Ok [some 0, some 0, some 0, some 10], 4⟩ ∧
    compute 9 tropical diamond .Forward ⟨1 / 1024, none, .Lifo⟩ =
      some ⟨.Ok [some 0, some 0, some 0, some (10 - 1 / 2048)], 4⟩ ∧
    compute 9 tropicalExact diamond .Forward ⟨1 / 1024, some 1, .Fifo⟩ =
      some ⟨.Truncated [some 0, some 0, some 0, some 10], 3⟩ ∧
    compute 9 tropicalExact diamond .Forward ⟨1 / 1024, some 1, .Lifo⟩ =
      some ⟨.Truncated [some 0, some 0, some 0, some (10 - 1 / 2048)], 3⟩ :=
  ⟨tropical_idempotent, rfl, diamond_acyclic, by decide!, by decide!, by decide!, by decide!⟩

/-! ### Part III, the report under a state limit of one -/

section LimitOne

variable {W : Type} {alg : WeightAlgebra W} {A : Automaton W}

theorem Accum.member_closed (hc : ValidClosed alg) (hv : ValidWeights alg A) {t : Nat} {x : W}
    (h : Accum alg A t x) : alg.Member x = true := by
  induction h with
  | zero t => exact hc.member_zero
  | one s0 h => exact hc.member_one
  | arc s x a hs ha _ ih => exact hc.member_times _ _ ih (hv s hs a ha)
  | plus t x y _ _ ihx ihy => exact hc.member_plus _ _ ihx ihy

/-- On a well-formed automaton with valid weights, relaxing an arc of a state
with an accumulated carried weight succeeds. -/
theorem relaxArc_ok (hwf : WellFormed A) (hc : ValidClosed alg) (hv : ValidWeights alg A)
    (delta : ℚ) {s : Nat} {c : W} {a : W × Nat} {st : EngineState W} (hs : s < A.numStates)
    (ha : a ∈ A.Arcs s) (hacc : Accum alg A s c) (h : ValidState alg A st) :
    ∃ st1, relaxArc alg delta A.numStates c st a = .ok st1 ∧ ValidState alg A st1 := by
  have hlt : a.2 < A.numStates := hwf.2 s hs a ha
  have hacc_x : Accum alg A a.2 (alg.Times c a.1) := Accum.arc s c a hs ha hacc
  have hacc_cand : Accum alg A a.2 (alg.Plus (st.distance a.2) (alg.Times c a.1)) :=
    Accum.plus _ _ _ (h.acc_d a.2) hacc_x
  have hm1 : alg.Member a.1 = true := hv s hs a ha
  have hm2 : alg.Member (alg.Times c a.1) = true := hacc_x.member_closed hc hv
  have hm3 : alg.Member (alg.Plus (st.distance a.2) (alg.Times c a.1)) = true :=
    hacc_cand.member_closed hc hv
  unfold relaxArc
  simp only [Nat.not_le.2 hlt, if_false, hm1, hm2, hm3, Bool.not_true, Bool.or_self,
    Bool.false_eq_true]
  split
  · exact ⟨_, rfl, ⟨h.acc_d, h.acc_r, h.lt⟩⟩
  · refine ⟨_, rfl, ⟨fun t => ?_, fun t => ?_, fun u hu => ?_⟩⟩
    · simp only [upd]
      split
      · next e => subst e; exact hacc_cand
      · exact h.acc_d t
    · simp only [upd]
      split
      · next e => subst e; exact Accum.plus _ _ _ (h.acc_r a.2) hacc_x
      · exact h.acc_r t
    · simp only at hu
      split at hu
      · exact h.lt u hu
      · rcases List.mem_append.1 hu with h1 | h1
        · exact h.lt u h1
        · have : u = a.2 := by simpa using h1
          rw [this]; exact hlt

theorem relaxArcs_ok (hwf : WellFormed A) (hc : ValidClosed alg) (hv : ValidWeights alg A)
    (delta : ℚ) {s : Nat} {c : W} (hs : s < A.numStates) (hacc : Accum alg A s c)
    (l : List (W × Nat)) : ∀ (st : EngineState W), ValidState alg A st →
    (∀ a ∈ l, a ∈ A.Arcs s) →
    ∃ st1, relaxArcs alg delta A.numStates c st l = .ok st1 ∧ ValidState alg A st1 := by
  induction l with
  | nil => intro st h _; exact ⟨st, rfl, h⟩
  | cons a rest ih =>
    intro st h hsub
    obtain ⟨st1, h1, hv1⟩ :=
      relaxArc_ok hwf hc hv delta hs (hsub a (List.mem_cons_self _ _)) hacc h
    obtain ⟨st2, h2, hv2⟩ := ih st1 hv1 (fun b hb => hsub b (List.mem_cons_of_mem _ hb))
    exact ⟨st2, by simp only [relaxArcs, h1]; exact h2, hv2⟩

/-- Relaxation never takes a state out of the active set. -/
theorem relaxArc_active_mono {delta : ℚ} {n : Nat} {c : W} {st st1 : EngineState W}
    {a : W × Nat} (h : relaxArc alg delta n c st a = .ok st1) :
    ∀ x ∈ st.active, x ∈ st1.active := by
  intro x hx
  unfold relaxArc at h
  simp only at h
  split at h
  · cases h
  · split at h
    · cases h
    · split at h
      · cases h
      · split at h
        · cases h; exact hx
        · cases h
          simp only
          split
          · exact hx
          · exact List.mem_append_left _ hx

theorem relaxArcs_active_mono {delta : ℚ} {n : Nat} {c : W} (l : List (W × Nat)) :
    ∀ (st st1 : EngineState W), relaxArcs alg delta n c st l = .ok st1 →
    ∀ x ∈ st.active, x ∈ st1.active := by
  induction l with
  | nil => intro st st1 h x hx; simp only [relaxArcs] at h; cases h; exact hx
  | cons a rest ih =>
    intro st st1 h x hx
    simp only [relaxArcs] at h
    cases hstep : relaxArc alg delta n c st a with
    | error o => simp [hstep] at h
    | ok st2 =>
      rw [hstep] at h
      exact ih st2 st1 h x (relaxArc_active_mono hstep x hx)

/-- An arc into a state whose entry is still Zero, relaxed without being
skipped, makes that state active. -/
theorem relaxArc_activates {delta : ℚ} {n : Nat} {c : W} {st st1 : EngineState W}
    {a : W × Nat} (h : relaxArc alg delta n c st a = .ok st1)
    (heff : alg.ApproxEqual (alg.Plus alg.Zero (alg.Times c a.1)) alg.Zero delta = false)
    (h0 : st.distance a.2 = alg.Zero ∨ a.2 ∈ st.active) : a.2 ∈ st1.active := by
  rcases h0 with h0 | h0
  · unfold relaxArc at h
    simp only at h
    split at h
    · cases h
    · split at h
      · cases h
      · split at h
        · cases h
        · split at h
          · next hap =>
            rw [h0, heff] at hap
            cases hap
          · cases h
            simp only
            split
            · next hm => exact hm
            · exact List.mem_append_right _ (List.mem_singleton_self _)
  · exact relaxArc_active_mono h _ h0

theorem relaxArcs_activates {delta : ℚ} {n : Nat} {c : W} (t : Nat) (l : List (W × Nat)) :
    ∀ (st st1 : EngineState W), relaxArcs alg delta n c st l = .ok st1 →
    (∀ a ∈ l, alg.ApproxEqual (alg.Plus alg.Zero (alg.Times c a.1)) alg.Zero delta = false) →
    (st.distance t = alg.Zero ∨ t ∈ st.active) →
    (st1.distance t = alg.Zero ∨ t ∈ st1.active) ∧ ((∃ a ∈ l, a.2 = t) → t ∈ st1.active) := by
  induction l with
  | nil =>
    intro st st1 h _ h0
    simp only [relaxArcs] at h
    cases h
    exact ⟨h0, fun ⟨a, ha, _⟩ => by simp at ha⟩
  | cons a rest ih =>
    intro st st1 h heff h0
    simp only [relaxArcs] at h
    cases hstep : relaxArc alg delta n c st a with
    | error o => simp [hstep] at h
    | ok st2 =>
      rw [hstep] at h
      have hmono := relaxArcs_active_mono rest st2 st1 h
      by_cases hat : a.2 = t
      · have hin : t ∈ st2.active := by
          rw [← hat]
          exact relaxArc_activates hstep (heff a (List.mem_cons_self _ _)) (by rw [hat]; exact h0)
        exact ⟨Or.inr (hmono t hin), fun _ => hmono t hin⟩
      · have h2 : st2.distance t = alg.Zero ∨ t ∈ st2.active := by
          rcases h0 with h0 | h0
          · left
            rw [(relaxArc_frame alg delta n c st st2 a hstep).1 t (fun e => hat e.symm)]
            exact h0
          · exact Or.inr (relaxArc_active_mono hstep t h0)
        obtain ⟨h3, h4⟩ := ih st2 st1 h (fun b hb => heff b (List.mem_cons_of_mem _ hb)) h2
        refine ⟨h3, fun ⟨b, hb, hbt⟩ => ?_⟩
        rcases List.mem_cons.1 hb with e | hb1
        · exact absurd (e ▸ hbt) hat
        · exact h4 ⟨b, hb1, hbt⟩

/-- One iteration of the loop on a well-formed automaton with valid weights:
the state selected is dequeued, its arcs are relaxed without error, and the
loop goes on from the state reached. -/
theorem relaxLoop_step_ok (hwf : WellFormed A) (hc : ValidClosed alg)
    (hv : ValidWeights alg A) (cfg : Config) (q : Queue W) (fuel : Nat)
    {st : EngineState W} (h : ValidState alg A st) {a : Nat} {rest : List Nat}
    (hact : st.active = a :: rest)
    (hcap : capExceeded cfg.state_limit st.dequeued = false) :
    ∃ st2,
      relaxArcs alg cfg.delta A.numStates (st.residual (select q st.distance a rest))
        { distance := st.distance
          residual := upd st.residual (select q st.distance a rest) alg.Zero
          active := (a :: rest).erase (select q st.distance a rest)
          dequeued := st.dequeued + 1
          arcReads := st.arcReads } (A.Arcs (select q st.distance a rest)) = .ok st2 ∧
      ValidState alg A st2 ∧
      relaxLoop alg A cfg q (fuel + 1) st = relaxLoop alg A cfg q fuel st2 := by
  have hsel : select q st.distance a rest ∈ st.active := by
    rw [hact]; exact select_mem q _ a rest
  have hv1 : ValidState alg A
      { distance := st.distance
        residual := upd st.residual (select q st.distance a rest) alg.Zero
        active := (a :: rest).erase (select q st.distance a rest)
        dequeued := st.dequeued + 1
        arcReads := st.arcReads } := by
    refine ⟨h.acc_d, fun t => ?_, fun u hu => h.lt u ?_⟩
    · simp only [upd]
      split
      · exact Accum.zero t
      · exact h.acc_r t
    · rw [hact]; exact List.mem_of_mem_erase hu
  obtain ⟨st2, h2, hv2⟩ :=
    relaxArcs_ok hwf hc hv cfg.delta (h.lt _ hsel) (h.acc_r _) (A.Arcs _) _ hv1
      (fun _ hb => hb)
  refine ⟨st2, h2, hv2, ?_⟩
  rw [relaxLoop]
  split
  · next hnil => rw [hact] at hnil; cases hnil
  · next a1 rest1 hcons =>
    rw [hact] at hcons
    cases hcons
    simp only [hcap, Bool.false_eq_true, if_false]
    rw [h2]

theorem validState_initState {s0 : Nat} (hstart : A.Start = some s0) (hlt : s0 < A.numStates) :
    ValidState alg A (initState alg s0) := by
  have hacc : ∀ t, Accum alg A t (upd (fun _ => alg.Zero) s0 alg.One t) := by
    intro t
    simp only [upd]
    split
    · next e => subst e; exact Accum.one t hstart
    · exact Accum.zero t
  exact ⟨hacc, hacc, fun s hs => by
    have e : s = s0 := by simpa [initState] using hs
    rw [e]; exact hlt⟩

theorem resolve_ok (hwf : WellFormed A) (disc : Discipline)
    (hq1 : disc = .ShortestFirst → alg.NaturalLess.isSome = true)
    (hq2 : disc = .TopologicalOrder → Acyclic A) : ∃ q, resolve alg A disc = .ok q := by
  cases disc with
  | Fifo => exact ⟨_, rfl⟩
  | Lifo => exact ⟨_, rfl⟩
  | StateOrder => exact ⟨_, rfl⟩
  | ShortestFirst =>
    obtain ⟨less, hless⟩ := Option.isSome_iff_exists.1 (hq1 rfl)
    exact ⟨.shortest less, by simp [resolve, hless]⟩
  | TopologicalOrder =>
    obtain ⟨o, ho⟩ := topologicalOrder_some (hq2 rfl) hwf
    exact ⟨.top o, by simp [resolve, ho]⟩
  | Auto =>
    cases hl : alg.NaturalLess with
    | some less => exact ⟨.shortest less, by simp [resolve, hl]⟩
    | none =>
      cases ho : topologicalOrder A with
      | some o => exact ⟨.top o, by simp [resolve, hl, ho]⟩
      | none => exact ⟨.fifo, by simp [resolve, hl, ho]⟩

end LimitOne

/-- On the diamond the start state has two effective arcs to two other states,
so the premise under which the call is Truncated holds there. -/
theorem diamond_two_successors :
    TwoSuccessors diamond 0 ∧ StartArcsEffective tropical diamond 0 (1 / 1024) := by
  refine ⟨⟨(some 0, 1), by simp [diamond], (some 0, 2), by simp [diamond], by decide,
    by decide, by decide⟩, ?_⟩
  intro a ha
  simp only [diamond, List.mem_cons, List.mem_singleton, List.not_mem_nil, or_false] at ha
  rcases ha with h | h <;> subst h <;> rfl

/-- The same report when the cap stops the loop one dequeue earlier: with
`state_limit = 0` the start state alone is dequeued, and the statement of C7 as
amended holds as well. -/
theorem state_limit_zero_report {W : Type} (alg : WeightAlgebra W) (A : Automaton W)
    (cfg : Config) (fuel s0 : Nat) (hfuel : 2 ≤ fuel) (hlim : cfg.state_limit = some 0)
    (hstart : A.Start = some s0) (hwf : WellFormed A) (hc : ValidClosed alg)
    (hv : ValidWeights alg A)
    (hq1 : cfg.discipline = .ShortestFirst → alg.NaturalLess.isSome = true)
    (hq2 : cfg.discipline = .TopologicalOrder → Acyclic A) :
    ∃ d k,
      (compute fuel alg A .Forward cfg = some ⟨.Truncated d, k⟩ ∨
        compute fuel alg A .Forward cfg = some ⟨.Ok d, k⟩) ∧
      (TwoSuccessors A s0 → StartArcsEffective alg A s0 cfg.delta →
        compute fuel alg A .Forward cfg = some ⟨.Truncated d, k⟩) ∧
      ∀ t, t < A.numStates → ¬ withinTwoArcs A s0 t →
        d[t]? = some (if t = s0 then alg.One else alg.Zero) := by
  obtain ⟨f, rfl⟩ : ∃ f, fuel = f + 2 := ⟨fuel - 2, by omega⟩
  have hlt : s0 < A.numStates := by
    obtain ⟨⟨s1, h1, h2⟩, -⟩ := id hwf
    rw [hstart] at h1
    cases h1
    exact h2
  obtain ⟨q, hq⟩ := resolve_ok hwf cfg.discipline hq1 hq2
  have hguard : ¬ (cfg.discipline = .ShortestFirst ∧ alg.NaturalLess.isNone = true) := by
    rintro ⟨h1, h2⟩
    have h3 := hq1 h1
    rw [Option.isNone_iff_eq_none] at h2
    rw [h2] at h3
    cases h3
  have hrun : compute (f + 2) alg A .Forward cfg =
      relaxLoop alg A cfg q (f + 2) (initState alg s0) := by
    simp only [compute, if_neg hguard]
    exact run_eq_relaxLoop cfg (f + 2) hq hstart hlt
  have hv0 : ValidState alg A (initState alg s0) := validState_initState hstart hlt
  have hact0 : (initState alg s0).active = s0 :: [] := rfl
  obtain ⟨st2, h2, -, hloop2⟩ :=
    relaxLoop_step_ok hwf hc hv cfg q (f + 1) hv0 hact0 (by simp [capExceeded, hlim, initState])
  rw [select_single] at h2
  have hcar : (initState alg s0).residual s0 = alg.One := by simp [initState, upd]
  rw [hcar] at h2
  obtain ⟨hd2, -, hdeq2⟩ := relaxArcs_frame _ _ _ _ _ _ _ h2
  simp only at hd2 hdeq2
  have hframe : ∀ t, t < A.numStates → ¬ withinTwoArcs A s0 t →
      (tabulate A.numStates st2.distance)[t]? =
        some (if t = s0 then alg.One else alg.Zero) := by
    intro t ht hw
    rw [tabulate_getElem? _ _ _ ht, hd2 t (fun a ha e => hw (Or.inl ⟨a, ha, e⟩))]
    rfl
  rw [hrun, hloop2]
  refine ⟨tabulate A.numStates st2.distance, st2.arcReads, ?_, ?_, hframe⟩
  · cases hact2 : st2.active with
    | nil => exact Or.inr (by rw [relaxLoop]; simp [hact2])
    | cons a2 rest2 => exact Or.inl (by rw [relaxLoop]; simp [hact2, capExceeded, hlim, hdeq2])
  · rintro ⟨a, ha, -, -, -, hne, -⟩ heff
    have hin : a.2 ∈ st2.active := by
      refine (relaxArcs_activates a.2 _ _ _ h2 heff (Or.inl ?_)).2 ⟨a, ha, rfl⟩
      simp [initState, upd, hne]
    cases hact2 : st2.active with
    | nil => rw [hact2] at hin; cases hin
    | cons a2 rest2 => rw [relaxLoop]; simp [hact2, capExceeded, hlim, hdeq2]

/-! ### Part I, the tables -/

set_option maxRecDepth 100000 in
theorem tbl_select :
    kSelectInByte = (List.range 2048).map (fun n => selectOr 0 (n % 256) (n / 256)) := by
  decide!

theorem select_in_byte_at_eq (j i : Nat) (hj : j < 8) (hi : i < 256) :
    select_in_byte_at (256 * j + i) = some (selectOr 0 i j) := by
  have hn : 256 * j + i < 2048 := by omega
  have h1 : (256 * j + i) % 256 = i := by omega
  have h2 : (256 * j + i) / 256 = j := by omega
  unfold select_in_byte_at
  rw [tbl_select, readAt_eq_getElem?, List.getElem?_map, List.getElem?_range hn]
  simp [h1, h2]

theorem selectFrom_cases (i : Nat) : ∀ n p j,
    (∃ q, q < p + n ∧ ∀ d, selectFrom d i n p j = q) ∨ ∀ d, selectFrom d i n p j = d := by
  intro n
  induction n with
  | zero => intro p j; exact Or.inr (fun _ => rfl)
  | succ n ih =>
    intro p j
    by_cases hb : i.testBit p = true
    · cases j with
      | zero => exact Or.inl ⟨p, by omega, fun d => by simp [selectFrom, hb]⟩
      | succ j =>
        rcases ih (p + 1) j with ⟨q, hq, h⟩ | h
        · exact Or.inl ⟨q, by omega, fun d => by simp [selectFrom, hb, h d]⟩
        · exact Or.inr (fun d => by simp [selectFrom, hb, h d])
    · rcases ih (p + 1) j with ⟨q, hq, h⟩ | h
      · exact Or.inl ⟨q, by omega, fun d => by simp [selectFrom, hb, h d]⟩
      · exact Or.inr (fun d => by simp [selectFrom, hb, h d])

theorem selectOr_cases (i j : Nat) :
    (∃ p, p < 8 ∧ ∀ d, selectOr d i j = p) ∨ ∀ d, selectOr d i j = d := by
  rcases selectFrom_cases i 8 0 j with ⟨q, hq, h⟩ | h
  · exact Or.inl ⟨q, by omega, h⟩
  · exact Or.inr h

theorem selectOr_zero_spec : ∀ i < 256, ∀ j < 8,
    (j < countBelow i 8 → selectOr 0 i j < 8 ∧ i.testBit (selectOr 0 i j) = true ∧
      countBelow i (selectOr 0 i j) = j) ∧
    (¬ j < countBelow i 8 → selectOr 0 i j = 0) := by
  intro i hi j hj
  have h := selectOr_255_spec i hi j hj
  rcases selectOr_cases i j with ⟨p, hp, hall⟩ | hall
  · rw [hall 0]
    rw [hall 255] at h
    refine ⟨h.1, fun hge => ?_⟩
    have := h.2 hge
    omega
  · rw [hall 0]
    rw [hall 255] at h
    refine ⟨fun hlt => ?_, fun _ => rfl⟩
    have := (h.1 hlt).1
    omega

set_option maxRecDepth 100000 in
theorem selectOr_255_scan : ∀ i < 256, ∀ j < 8,
    selectOr 255 i j = toUint8 (nth_bit_scan i (j + 1)) := by
  decide!

theorem countBelow_of_lt_two_pow (v k : Nat) (hv : v < 2 ^ k) :
    ∀ p, k ≤ p → countBelow v p = countBelow v k := by
  intro p hp
  induction hp with
  | refl => rfl
  | step hle ih =>
    have hlt : v < 2 ^ _ := Nat.lt_of_lt_of_le hv (Nat.pow_le_pow_right (by norm_num) hle)
    simp only [countBelow, ih, Nat.testBit_lt_two_pow hlt]
    simp

/-- C12: for every `r` in 0..7 and every byte value `v`, `nth_bit_bit_pos[r][v]`
is the position (0..7) of the `r`-th set bit of `v`, counting from zero, when
`v` has more than `r` set bits, and 255 otherwise. -/
theorem bit_pos_table_entries (r v : Nat) (hr : r < 8) (hv : v < 256) :
    (r < countBelow v 8 → ∃ p, bit_pos_at r v = some p ∧ p < 8 ∧ v.testBit p = true ∧
      countBelow v p = r) ∧
    (¬ r < countBelow v 8 → bit_pos_at r v = some 255) := by
  have h := selectOr_255_spec v hv r hr
  rw [bit_pos_at_eq r v hr hv]
  exact ⟨fun hlt => ⟨_, rfl, h.1 hlt⟩, fun hge => by rw [h.2 hge]⟩

theorem bit_pos_table_entries_witness :
    (2 < countBelow 0xB4 8 → ∃ p, bit_pos_at 2 0xB4 = some p ∧ p < 8 ∧
      (0xB4 : Nat).testBit p = true ∧ countBelow 0xB4 p = 2) ∧
    (¬ 2 < countBelow 0xB4 8 → bit_pos_at 2 0xB4 = some 255) :=
  bit_pos_table_entries 2 0xB4 (by decide) (by decide)

/-- C13, evaluated: the table and the generator of the comment differ.
`nth_bit_bit_pos[0][1]` is 0 while `nth_bit_scan(1, 0)` is -1, that is 255 as a
`uint8`; `nth_bit_bit_pos[0][0]` is 255 while `nth_bit_scan(0, 0)` is 0. -/
theorem bit_pos_differs_from_scan :
    bit_pos_at 0 1 = some 0 ∧ nth_bit_scan 1 0 = U32 - 1 ∧ toUint8 (nth_bit_scan 1 0) = 255 ∧
    bit_pos_at 0 0 = some 255 ∧ toUint8 (nth_bit_scan 0 0) = 0 := by
  decide!

/-- The table is the generator of the comment called with `r + 1`: the generator
counts set bits from one, the table from zero. -/
theorem bit_pos_eq_scan_succ (r v : Nat) (hr : r < 8) (hv : v < 256) :
    bit_pos_at r v = some (toUint8 (nth_bit_scan v (r + 1))) := by
  rw [bit_pos_at_eq r v hr hv, selectOr_255_scan v hv r hr]

/-- C14: for every byte value `v`, `nth_bit_bit_count[v]` is the number of set
bits of `v`. -/
theorem bit_count_table_entries (v : Nat) (hv : v < 256) :
    bit_count_at v = some (popcountll v) := by
  rw [tbl_count v hv, popcountll, countBelow_of_lt_two_pow v 8 hv 64 (by norm_num)]

theorem bit_count_table_entries_witness : bit_count_at 0xB4 = some (popcountll 0xB4) :=
  bit_count_table_entries 0xB4 (by decide)

/-- C15: for every `j` in 0..7 and every byte value `i`, `kSelectInByte[256*j + i]`
is the position (0..7) of the `j`-th set bit of `i`, counting from zero, when
`i` has more than `j` set bits, and 0 when it has not. -/
theorem select_in_byte_entries (j i : Nat) (hj : j < 8) (hi : i < 256) :
    ∃ e, select_in_byte_at (256 * j + i) = some e ∧
      (j < countBelow i 8 → e < 8 ∧ i.testBit e = true ∧ countBelow i e = j) ∧
      (¬ j < countBelow i 8 → e = 0) :=
  ⟨selectOr 0 i j, select_in_byte_at_eq j i hj hi, selectOr_zero_spec i hi j hj⟩

theorem select_in_byte_entries_witness :
    ∃ e, select_in_byte_at (256 * 3 + 0xB4) = some e ∧
      (3 < countBelow 0xB4 8 → e < 8 ∧ (0xB4 : Nat).testBit e = true ∧
        countBelow 0xB4 e = 3) ∧
      (¬ 3 < countBelow 0xB4 8 → e = 0) :=
  select_in_byte_entries 3 0xB4 (by decide) (by decide)

set_option maxRecDepth 100000 in
theorem tbl_prefix : ∀ k < 64,
    prefix_sum_overflow_at k = some ((0x7F - k) * kOnesStep8 % U64) ∧
    (0x7F - k) * kOnesStep8 < U64 ∧
    ∀ b < 8, byteOf ((0x7F - k) * kOnesStep8) b = 0x7F - k := by
  decide!

/-- C16: for every `k` in 0..63, `kPrefixSumOverflow[k]` is
`(0x7F - k) * 0x0101010101010101` as a 64-bit value, the multiplication does
not overflow, and each of the eight bytes of the entry equals `0x7F - k`. -/
theorem prefix_sum_overflow_entries (k : Nat) (hk : k < 64) :
    prefix_sum_overflow_at k = some ((0x7F - k) * kOnesStep8 % U64) ∧
    (0x7F - k) * kOnesStep8 < U64 ∧
    ∀ b, b < 8 → byteOf ((0x7F - k) * kOnesStep8 % U64) b = 0x7F - k := by
  obtain ⟨h1, h2, h3⟩ := tbl_prefix k hk
  refine ⟨h1, h2, fun b hb => ?_⟩
  rw [Nat.mod_eq_of_lt h2]
  exact h3 b hb

theorem prefix_sum_overflow_entries_witness :
    prefix_sum_overflow_at 5 = some ((0x7F - 5) * kOnesStep8 % U64) ∧
    (0x7F - 5) * kOnesStep8 < U64 ∧
    ∀ b, b < 8 → byteOf ((0x7F - 5) * kOnesStep8 % U64) b = 0x7F - 5 :=
  prefix_sum_overflow_entries 5 (by decide)

/-! ### Part II, the option names -/

/-- C11, as amended: the four configuration options that the command declares
are named reverse, delta, nstate and queue_type. -/
theorem option_names (c : LibConsts) :
    flagNames c = ["reverse", "delta", "nstate", "queue_type"] :=
  rfl

/-- C11, as stated, fails: the declared names are not reverse, delta,
state_limit and discipline, and no option is declared under the name
state_limit or discipline. -/
theorem option_names_claim_fails :
    ¬ (∀ c : LibConsts, flagNames c = ["reverse", "delta", "state_limit", "discipline"]) ∧
    findFlag ⟨0, 0⟩ "state_limit" = none ∧ findFlag ⟨0, 0⟩ "discipline" = none := by
  refine ⟨fun h => ?_, rfl, rfl⟩
  have h0 := h ⟨0, 0⟩
  revert h0
  decide

end Fst
